import Mathlib

/-!
Verification development for the PUTMAN visual-sim core engine.

The TypeScript core (rng.ts, generator.ts, hash.ts and the pipeline module)
is shallow-embedded below.  JavaScript numbers are modelled by `ℚ`; the
32-bit integer arithmetic of the RNG and of the FNV fold is modelled by
`Nat` arithmetic taken modulo 2^32 at the points where JavaScript coerces
to 32-bit integers (`Math.imul`, `^`, `|`, `>>>`).  The foreign
transcendental primitives `Math.exp`, `Math.sqrt`, `Math.sin` and the
number-to-string conversion used by `JSON.stringify` are not code of this
repository; they are supplied through a `MathEnv` record, and every theorem
is stated for an arbitrary environment unless a property of the primitive
itself is needed, in which case it appears as an explicit hypothesis.
-/

namespace Putman

/-- `Math.round(value * 1000) / 1000`: JavaScript rounds to the nearest
integer with ties toward positive infinity, i.e. `⌊x + 1/2⌋`. -/
def round3 (q : ℚ) : ℚ := ((⌊q * 1000 + 1/2⌋ : ℤ) : ℚ) / 1000

/-- `clamp01` from rng.ts: `Math.min(1, Math.max(0, value))`. -/
def clamp01 (q : ℚ) : ℚ := min 1 (max 0 q)

/-- 2^32, the modulus of JavaScript's 32-bit integer coercions and the
divisor `4294967296` in `createRng`. -/
def U32 : ℕ := 4294967296

/-- `Math.imul`: the low 32 bits of the product. -/
def imul32 (a b : ℕ) : ℕ := (a * b) % U32

/-- One step of the mulberry32-style generator from `createRng` in rng.ts.
The state is kept reduced modulo 2^32 (JavaScript keeps the running float
unreduced, but only its low 32 bits ever reach the bitwise pipeline, and
the float addition is exact at the call counts used).  Returns the new
state together with the drawn value `((t ^ (t >>> 14)) >>> 0) / 4294967296`. -/
def rngStep (state : ℕ) : ℕ × ℚ :=
  let s := (state + 0x6d2b79f5) % U32
  let t1 := imul32 (Nat.xor s (s >>> 15)) (s ||| 1)
  let t2 := Nat.xor t1 ((t1 + imul32 (Nat.xor t1 (t1 >>> 7)) (t1 ||| 61)) % U32)
  (s, ((Nat.xor t2 (t2 >>> 14) : ℕ) : ℚ) / (U32 : ℚ))

/-- `createRng(seed)` starts from `seed >>> 0`. -/
def rngInit (seed : ℕ) : ℕ := seed % U32

/-- The foreign math primitives consumed by the engine: `Math.exp`,
`Math.sqrt`, `Math.sin`, and the number formatting used by
`JSON.stringify` inside `stableStringify`.  They are parameters of the
model, not code of the repository. -/
structure MathEnv where
  exp : ℚ → ℚ
  sqrt : ℚ → ℚ
  sin : ℚ → ℚ
  numToString : ℚ → String

/-! ### Data model (types.ts) -/

structure Node where
  id : String
  prior : Bool
  novelty : Bool
deriving DecidableEq, Repr

structure Edge where
  id : String
  source : String
  target : String
  weight : ℚ
  prior : Bool
deriving DecidableEq, Repr

structure Graph where
  nodes : List Node
  edges : List Edge
deriving DecidableEq, Repr

structure PipelineParams where
  seed : ℕ
  nodeCount : ℕ
  edgeDensity : ℚ
  overlapPercent : ℚ
  recursionDepth : ℕ
  rigidity : ℚ
  beamWidth : ℕ
  activationThreshold : ℚ
  contextBlend : ℚ
  weightLearningRate : ℚ
  driftBias : ℚ
deriving DecidableEq, Repr

structure BeamCandidate where
  nodePath : List String
  edgePath : List String
  score : ℚ
deriving DecidableEq, Repr

/-- An `{ id, score }` entry of the interpretation summary. -/
structure ScoredId where
  id : String
  score : ℚ
deriving DecidableEq, Repr

structure InterpretationSummary where
  topNodes : List ScoredId
  topEdges : List ScoredId
  centroid : List (String × ℚ)
deriving DecidableEq, Repr

structure StepRunLog where
  step : ℕ
  seed : ℕ
  params : PipelineParams
  activeSet : List String
  prunedNodes : List String
  prunedEdges : List String
  beamCandidates : List BeamCandidate
  interpretation : InterpretationSummary
  activationVector : List (String × ℚ)
  edgeWeights : List (String × ℚ)
  delta : ℚ
deriving DecidableEq, Repr

structure RunLog where
  model : String
  createdAt : String
  params : PipelineParams
  steps : List StepRunLog
deriving DecidableEq, Repr

structure SimulationOutput where
  graph : Graph
  context : List (String × ℚ)
  runlog : RunLog
deriving DecidableEq, Repr

/-! ### Record / map helpers

JavaScript objects with string keys keep insertion order; they are
modelled by association lists with distinct keys. -/

/-- `record[key]` as an optional value (first binding wins; the engine
only builds records with distinct keys). -/
def lookup? (m : List (String × ℚ)) (k : String) : Option ℚ :=
  (m.find? (fun kv => kv.1 == k)).map (fun kv => kv.2)

/-- `record[key] ?? d`. -/
def getD (m : List (String × ℚ)) (k : String) (d : ℚ) : ℚ :=
  (lookup? m k).getD d

/-- `score >= threshold` on a possibly-missing record entry: in JavaScript
`undefined >= t` is `false`. -/
def jsGe (o : Option ℚ) (t : ℚ) : Bool :=
  match o with
  | some v => decide (t ≤ v)
  | none => false

/-- A state-threading traversal producing at most one output per input, in
input order: the shape of the generator's edge loop (one RNG draw decides
inclusion, a second draws the weight). -/
def mapState (f : σ → α → σ × Option β) : σ → List α → σ × List β
  | s, [] => (s, [])
  | s, a :: as =>
    let p := f s a
    let rest := mapState f p.1 as
    (rest.1, match p.2 with | some b => b :: rest.2 | none => rest.2)

/-! ### Graph generator (generator.ts) -/

/-- One decimal digit character. -/
def digitChar (d : ℕ) : Char :=
  match d with
  | 0 => '0' | 1 => '1' | 2 => '2' | 3 => '3' | 4 => '4'
  | 5 => '5' | 6 => '6' | 7 => '7' | 8 => '8' | 9 => '9'
  | _ => '0'

/-- Fuel-driven digit extraction (structurally recursive so that the kernel
can evaluate it); with fuel `> n` it yields the decimal digits of `n`, most
significant first. -/
def decDigitsAux : ℕ → ℕ → List Char
  | 0, _ => []
  | fuel + 1, n =>
    if n < 10 then [digitChar n]
    else decDigitsAux fuel (n / 10) ++ [digitChar (n % 10)]

/-- Decimal digits of `n`, most significant first: `Number.prototype.toString`. -/
def natDecDigits (n : ℕ) : List Char := decDigitsAux (n + 1) n

/-- `String.prototype.padStart(k, "0")`. -/
def padZero (k : ℕ) (l : List Char) : List Char :=
  List.replicate (k - l.length) '0' ++ l

/-- `makeNodeId(index)`: `n` followed by the index zero-padded to 3 digits. -/
def makeNodeId (i : ℕ) : String :=
  String.mk ('n' :: padZero 3 (natDecDigits i))

/-- `Math.max(1, Math.floor(nodeCount * overlapPercent))`. -/
def overlapCount (params : PipelineParams) : ℕ :=
  max 1 (⌊(params.nodeCount : ℚ) * params.overlapPercent⌋).toNat

/-- `Math.max(overlapCount + 1, Math.floor(nodeCount * 0.6))`. -/
def priorCount (params : PipelineParams) : ℕ :=
  max (overlapCount params + 1) (⌊(params.nodeCount : ℚ) * 0.6⌋).toNat

/-- The node loop of `generateGraph`: node `i` is prior iff `i < priorCount`
and novel iff `i ≥ priorCount - overlapCount`. -/
def genNodes (params : PipelineParams) : List Node :=
  (List.range params.nodeCount).map (fun i =>
    { id := makeNodeId i
      prior := decide (i < priorCount params)
      novelty := decide (priorCount params - overlapCount params ≤ i) })

/-- All ordered pairs `(nodes[i], nodes[j])` with `i < j`, in the nested
loop order of `generateGraph`. -/
def pairsOf : List Node → List (Node × Node)
  | [] => []
  | n :: rest => (rest.map (fun m => (n, m))) ++ pairsOf rest

/-- The body of the edge loop: one draw decides inclusion
(`rng.next() <= edgeDensity`), a second draws the weight
`round((0.2 + draw * 0.8) * 1000) / 1000`. -/
def edgeStep (params : PipelineParams) (s : ℕ) (p : Node × Node) : ℕ × Option Edge :=
  let d := rngStep s
  if d.2 ≤ params.edgeDensity then
    let w := rngStep d.1
    (w.1, some
      { id := p.1.id ++ "->" ++ p.2.id
        source := p.1.id
        target := p.2.id
        weight := round3 (0.2 + w.2 * 0.8)
        prior := p.1.prior && p.2.prior })
  else (d.1, none)

/-- The body of the context loop:
`(prior ? 0.45 : 0.35) + (novel ? 0.2 : 0) + draw * 0.25`, rounded. -/
def ctxStep (s : ℕ) (node : Node) : ℕ × Option (String × ℚ) :=
  let d := rngStep s
  (d.1, some (node.id,
    round3 ((if node.prior then 0.45 else 0.35) + (if node.novelty then 0.2 else 0) + d.2 * 0.25)))

/-- `generateGraph(seed, params)` from generator.ts: nodes, then edges (one
RNG instance threaded through the pair loop), then the context vector. -/
def generateGraph (seed : ℕ) (params : PipelineParams) :
    Graph × List (String × ℚ) :=
  let nodes := genNodes params
  let e := mapState (edgeStep params) (rngInit seed) (pairsOf nodes)
  let c := mapState ctxStep e.1 nodes
  ({ nodes := nodes, edges := e.2 }, c.2)

/-! ### Activation scorer -/

/-- `makeAdjacency(edges).get(id)`: every edge is pushed onto its source's
list and then onto its target's list, in edge order; for a fixed `id` this
is the edge list filtered to incident edges, with a self-loop appearing
twice. -/
def adjGet (edges : List Edge) (id : String) : List Edge :=
  edges.flatMap (fun e =>
    (if e.source == id then [e] else []) ++ (if e.target == id then [e] else []))

/-- `sigmoid(x) = 1 / (1 + Math.exp(-x))`. -/
def sigmoid (E : MathEnv) (x : ℚ) : ℚ := 1 / (1 + E.exp (-x))

/-- The per-node body of `activationScores`. -/
def nodeScore (E : MathEnv) (graph : Graph) (context : List (String × ℚ))
    (params : PipelineParams) (node : Node) : ℚ :=
  let incident := adjGet graph.edges node.id
  let degreeScore : ℚ :=
    if incident.length = 0 then 0
    else (incident.map (fun e => e.weight)).sum / (incident.length : ℚ)
  let contextScore := getD context node.id 0
  let noveltyBonus : ℚ := if node.novelty then 0.08 else 0
  let raw := params.contextBlend * contextScore
    + (1 - params.contextBlend) * degreeScore + noveltyBonus
  round3 (sigmoid E ((raw - 0.5) * 4))

/-- `activationScores`: a record mapping each node id to its score, in node
order (node ids are distinct in every graph the engine builds). -/
def activationScores (E : MathEnv) (graph : Graph) (context : List (String × ℚ))
    (params : PipelineParams) : List (String × ℚ) :=
  graph.nodes.map (fun node => (node.id, nodeScore E graph context params node))

/-! ### Rigidity pruner -/

structure RigidityResult where
  keptGraph : Graph
  prunedNodes : List String
  prunedEdges : List String
  activeSet : List String
deriving DecidableEq, Repr

/-- `applyRigidity` from the pipeline module. -/
def applyRigidity (graph : Graph) (scores : List (String × ℚ))
    (params : PipelineParams) : RigidityResult :=
  let activeThreshold := params.activationThreshold
  let edgeThreshold := params.rigidity
  let activeSet := (graph.nodes.filter
    (fun node => jsGe (lookup? scores node.id) activeThreshold)).map (fun node => node.id)
  let keptNodes := graph.nodes.filter
    (fun node => jsGe (lookup? scores node.id) (activeThreshold * params.rigidity))
  let keptNodeIds := keptNodes.map (fun n => n.id)
  let prunedNodes := (graph.nodes.filter
    (fun node => !(keptNodeIds.contains node.id))).map (fun node => node.id)
  let keptEdges := graph.edges.filter (fun edge =>
    keptNodeIds.contains edge.source && keptNodeIds.contains edge.target
      && decide (edgeThreshold ≤ edge.weight))
  let keptEdgeIds := keptEdges.map (fun e => e.id)
  let prunedEdges := (graph.edges.filter
    (fun edge => !(keptEdgeIds.contains edge.id))).map (fun edge => edge.id)
  { keptGraph := { nodes := keptNodes, edges := keptEdges }
    prunedNodes := prunedNodes
    prunedEdges := prunedEdges
    activeSet := activeSet }

/-! ### Beam reconstructor -/

/-- The seed ids of `beamReconstruct`: the active set if non-empty,
otherwise `graph.nodes.slice(0, Math.min(3, graph.nodes.length))`. -/
def beamSeedIds (graph : Graph) (activeSet : List String) : List String :=
  if activeSet.length > 0 then activeSet
  else (graph.nodes.take (min 3 graph.nodes.length)).map (fun n => n.id)

/-- One single-node candidate per seed, score `scores[seed] ?? 0`. -/
def initialBeams (scores : List (String × ℚ)) (seedIds : List String) :
    List BeamCandidate :=
  seedIds.map (fun s => { nodePath := [s], edgePath := [], score := getD scores s 0 })

/-- One expansion round: every beam extends along every incident edge of its
tail to a neighbor not already on its node path, with
`score = round((beam.score + (scores[next] ?? 0) + edge.weight) * 1000) / 1000`. -/
def beamRound (graph : Graph) (scores : List (String × ℚ))
    (beams : List BeamCandidate) : List BeamCandidate :=
  beams.flatMap (fun beam =>
    match beam.nodePath.getLast? with
    | none => []
    | some tail =>
      (adjGet graph.edges tail).filterMap (fun edge =>
        let next := if edge.source == tail then edge.target else edge.source
        if beam.nodePath.contains next then none
        else some
          { nodePath := beam.nodePath ++ [next]
            edgePath := beam.edgePath ++ [edge.id]
            score := round3 (beam.score + getD scores next 0 + edge.weight) }))

/-- The concatenated node path, `beam.nodePath.join("")`. -/
def joinedPath (c : BeamCandidate) : String := String.join c.nodePath

/-- The sort comparator `(a, b) => b.score - a.score || a.nodePath.join("").localeCompare(b.nodePath.join(""))`,
as the "may come first" Boolean relation of a stable sort. -/
def beamLe (a b : BeamCandidate) : Bool :=
  decide (b.score < a.score) || (decide (a.score = b.score) && decide (joinedPath a ≤ joinedPath b))

/-- The `for (depth = 0; depth < 3; ...)` loop of `beamReconstruct`, with
fuel counting the remaining rounds: pool all expansions, stop early if none,
otherwise sort descending by score (ties by joined path) and keep the top
`beamWidth`. -/
def beamLoop (graph : Graph) (scores : List (String × ℚ)) (beamWidth : ℕ) :
    ℕ → List BeamCandidate → List BeamCandidate
  | 0, beams => beams
  | d + 1, beams =>
    let expansions := beamRound graph scores beams
    if expansions.isEmpty then beams
    else beamLoop graph scores beamWidth d ((expansions.mergeSort beamLe).take beamWidth)

/-- `beamReconstruct(graph, scores, activeSet, beamWidth)`. -/
def beamReconstruct (graph : Graph) (scores : List (String × ℚ))
    (activeSet : List String) (beamWidth : ℕ) : List BeamCandidate :=
  beamLoop graph scores beamWidth 3 (initialBeams scores (beamSeedIds graph activeSet))

/-! ### Interpreter -/

/-- The comparator `(a, b) => b[1] - a[1] || a[0].localeCompare(b[0])` on
record entries. -/
def entryLe (a b : String × ℚ) : Bool :=
  decide (b.2 < a.2) || (decide (a.2 = b.2) && decide (a.1 ≤ b.1))

/-- `Map.set(k, (Map.get(k) ?? 0) + v)`: update in place if present
(keeping position), else append. -/
def addContribution (m : List (String × ℚ)) (k : String) (v : ℚ) :
    List (String × ℚ) :=
  if m.any (fun kv => kv.1 == k) then
    m.map (fun kv => if kv.1 == k then (kv.1, kv.2 + v) else kv)
  else m ++ [(k, v)]

/-- The edge-contribution accumulation of `interpret`: each beam adds its
score to every edge on its edge path. -/
def edgeContribution (beams : List BeamCandidate) : List (String × ℚ) :=
  beams.foldl (fun m beam =>
    beam.edgePath.foldl (fun m' edgeId => addContribution m' edgeId beam.score) m) []

/-- `interpret(beams, scores, graph)`. -/
def interpret (beams : List BeamCandidate) (scores : List (String × ℚ))
    (graph : Graph) : InterpretationSummary :=
  let topNodes := ((scores.mergeSort entryLe).take 5).map
    (fun kv => { id := kv.1, score := round3 kv.2 : ScoredId })
  let topEdges := (((edgeContribution beams).mergeSort entryLe).take 5).map
    (fun kv => { id := kv.1, score := round3 kv.2 : ScoredId })
  let centroid := graph.nodes.map (fun node => (node.id, getD scores node.id 0))
  { topNodes := topNodes, topEdges := topEdges, centroid := centroid }

/-! ### Delta and updater -/

/-- The JavaScript `Set` of the keys of both records: first occurrences in
insertion order. -/
def keyUnion (a b : List (String × ℚ)) : List String :=
  (a.map (fun kv => kv.1) ++ b.map (fun kv => kv.1)).foldl
    (fun acc k => if acc.contains k then acc else acc ++ [k]) []

/-- `l2Distance(a, b)`: square root of the summed squared differences over
the union of keys, a missing key contributing 0. -/
def l2Distance (E : MathEnv) (a b : List (String × ℚ)) : ℚ :=
  E.sqrt (((keyUnion a b).map (fun k => (getD a k 0 - getD b k 0) ^ 2)).sum)

/-- `updateWeights(graph, scores, params, stepSeed)`: a fresh RNG seeded
from `stepSeed`, one draw per edge, new weight
`clamp01(w*(1-lr) + meanActivation*lr + noveltyPush*0.05 + (draw-0.5)*0.02)`
rounded to 3 decimals. -/
def updateWeights (graph : Graph) (scores : List (String × ℚ))
    (params : PipelineParams) (stepSeed : ℕ) : Graph :=
  let upd := mapState (fun s (edge : Edge) =>
    let d := rngStep s
    let sourceScore := getD scores edge.source 0
    let targetScore := getD scores edge.target 0
    let meanActivation := (sourceScore + targetScore) / 2
    let noveltyPush : ℚ := if edge.prior then 0 else params.driftBias
    let stochastic := (d.2 - 0.5) * 0.02
    let nextWeight := clamp01
      (edge.weight * (1 - params.weightLearningRate)
        + meanActivation * params.weightLearningRate
        + noveltyPush * 0.05 + stochastic)
    (d.1, some { edge with weight := round3 nextWeight }))
    (rngInit stepSeed) graph.edges
  { graph with edges := upd.2 }

/-- `toEdgeWeightMap(edges)`. -/
def toEdgeWeightMap (edges : List Edge) : List (String × ℚ) :=
  edges.map (fun edge => (edge.id, edge.weight))

/-- The in-place context perturbation of `runPipeline`:
`context[key] = round(clamp01(context[key] + sin((step+1)*(index+1))*0.005 + driftBias*0.01) * 1000) / 1000`
over the keys of the context in insertion order. -/
def contextPerturb (E : MathEnv) (params : PipelineParams) (step : ℕ)
    (context : List (String × ℚ)) : List (String × ℚ) :=
  context.enum.map (fun p =>
    (p.2.1, round3 (clamp01 (p.2.2
      + E.sin ((((step + 1) * (p.1 + 1) : ℕ) : ℚ)) * 0.005
      + params.driftBias * 0.01))))

/-! ### Pipeline -/

/-- The body of one iteration of the `runPipeline` loop: the `StepRunLog`
pushed for `step` given the current graph, context and previous activation
vector. -/
def stepRecord (E : MathEnv) (params : PipelineParams) (step : ℕ)
    (graph : Graph) (context : List (String × ℚ))
    (prev : Option (List (String × ℚ))) : StepRunLog :=
  let scores := activationScores E graph context params
  let rigid := applyRigidity graph scores params
  let beamCandidates := beamReconstruct rigid.keptGraph scores rigid.activeSet params.beamWidth
  let interpretation := interpret beamCandidates scores rigid.keptGraph
  let delta := match prev with
    | some p => round3 (l2Distance E p scores)
    | none => 0
  { step := step
    seed := params.seed
    params := params
    activeSet := rigid.activeSet.mergeSort (fun a b => decide (a ≤ b))
    prunedNodes := rigid.prunedNodes.mergeSort (fun a b => decide (a ≤ b))
    prunedEdges := rigid.prunedEdges.mergeSort (fun a b => decide (a ≤ b))
    beamCandidates := beamCandidates
    interpretation := interpretation
    activationVector := scores
    edgeWeights := toEdgeWeightMap graph.edges
    delta := delta }

/-- The `for (step = 0; step < recursionDepth; ...)` loop of `runPipeline`:
`rem + 1` iterations remain; the updater runs only when this is not the
last iteration (`step < recursionDepth - 1`).  Returns the accumulated
step records together with the final graph and context. -/
def runLoop (E : MathEnv) (params : PipelineParams) :
    ℕ → ℕ → Graph → List (String × ℚ) → Option (List (String × ℚ)) →
    List StepRunLog × Graph × List (String × ℚ)
  | 0, _, graph, context, _ => ([], graph, context)
  | rem + 1, step, graph, context, prev =>
    let scores := activationScores E graph context params
    let entry := stepRecord E params step graph context prev
    match rem with
    | 0 => ([entry], graph, context)
    | r + 1 =>
      let graph' := updateWeights graph scores params (params.seed + step + 1)
      let context' := contextPerturb E params step context
      let rest := runLoop E params (r + 1) (step + 1) graph' context' (some scores)
      (entry :: rest.1, rest.2.1, rest.2.2)

/-- `runPipeline(params)` from the pipeline module. -/
def runPipeline (E : MathEnv) (params : PipelineParams) : SimulationOutput :=
  let g := generateGraph params.seed params
  let r := runLoop E params params.recursionDepth 0 g.1 g.2 none
  { graph := r.2.1
    context := r.2.2
    runlog :=
      { model := "PUTMAN Pipeline Visual Simulator"
        createdAt := "deterministic"
        params := params
        steps := r.1 } }

/-- The graph and context the engine holds entering step `k` (step 0 is the
freshly generated pair; afterwards the updater and the context perturbation
advance them, step `k` using the derived seed `seed + k + 1`). -/
def stateAt (E : MathEnv) (params : PipelineParams) :
    ℕ → Graph × List (String × ℚ)
  | 0 =>
    let g := generateGraph params.seed params
    (g.1, g.2)
  | k + 1 =>
    let p := stateAt E params k
    let scores := activationScores E p.1 p.2 params
    (updateWeights p.1 scores params (params.seed + k + 1),
      contextPerturb E params k p.2)

/-! ### Runlog hashing (hash.ts)

`stableStringify` walks an arbitrary JSON value; the typed `RunLog` is
first injected into a JSON tree. -/

inductive JValue where
  | jnull : JValue
  | jbool (b : Bool) : JValue
  | jnum (q : ℚ) : JValue
  | jstr (s : String) : JValue
  | jarr (items : List JValue) : JValue
  | jobj (fields : List (String × JValue)) : JValue

/-- One hexadecimal digit character (lowercase, as produced by
`Number.prototype.toString(16)`). -/
def hexDigitChar (d : ℕ) : Char :=
  match d with
  | 0 => '0' | 1 => '1' | 2 => '2' | 3 => '3' | 4 => '4'
  | 5 => '5' | 6 => '6' | 7 => '7' | 8 => '8' | 9 => '9'
  | 10 => 'a' | 11 => 'b' | 12 => 'c' | 13 => 'd' | 14 => 'e' | 15 => 'f'
  | _ => '0'

/-- Fuel-driven hexadecimal digit extraction (structurally recursive so
that the kernel can evaluate it); with fuel `> n` it yields the hex digits
of `n`, most significant first. -/
def hexDigitsAux : ℕ → ℕ → List Char
  | 0, _ => []
  | fuel + 1, n =>
    if n < 16 then [hexDigitChar n]
    else hexDigitsAux fuel (n / 16) ++ [hexDigitChar (n % 16)]

/-- Hexadecimal digits of `n`, most significant first:
`Number.prototype.toString(16)`. -/
def natHexDigits (n : ℕ) : List Char := hexDigitsAux (n + 1) n

/-- JSON string-character escaping as performed by `JSON.stringify`. -/
def jsonEscapeChar (c : Char) : String :=
  if c = '"' then "\\\""
  else if c = '\\' then "\\\\"
  else if c = '\x08' then "\\b"
  else if c = '\x09' then "\\t"
  else if c = '\x0a' then "\\n"
  else if c = '\x0c' then "\\f"
  else if c = '\x0d' then "\\r"
  else if c.toNat < 32 then "\\u" ++ String.mk (padZero 4 (natHexDigits c.toNat))
  else String.singleton c

/-- `JSON.stringify` of a string literal. -/
def jsonQuote (s : String) : String :=
  "\"" ++ String.join (s.data.map jsonEscapeChar) ++ "\""

/-- Key comparison used by `Object.keys(record).sort()`, on fields whose
values are already rendered. -/
def strFieldLe (a b : String × String) : Bool := decide (a.1 ≤ b.1)

mutual

/-- `stableStringify` from hash.ts: primitives via their JSON literal
encoding, arrays in order, objects with keys sorted lexicographically.
The source sorts the (distinct) keys and then renders each looked-up
value; rendering is independent of order, so the model renders each field
and then sorts by key, which lets the recursion stay structural. -/
def stableStringify (E : MathEnv) : JValue → String
  | .jnull => "null"
  | .jbool true => "true"
  | .jbool false => "false"
  | .jnum q => E.numToString q
  | .jstr s => jsonQuote s
  | .jarr items =>
    "[" ++ String.intercalate "," (ssItems E items) ++ "]"
  | .jobj fields =>
    "\x7b" ++ String.intercalate ","
      (((ssFields E fields).mergeSort strFieldLe).map
        (fun kv => jsonQuote kv.1 ++ ":" ++ kv.2)) ++ "\x7d"

/-- The items of an array, each rendered by `stableStringify`. -/
def ssItems (E : MathEnv) : List JValue → List String
  | [] => []
  | v :: vs => stableStringify E v :: ssItems E vs

/-- The fields of an object, each value rendered by `stableStringify`. -/
def ssFields (E : MathEnv) : List (String × JValue) → List (String × String)
  | [] => []
  | (k, v) :: rest => (k, stableStringify E v) :: ssFields E rest

end

/-- The 32-bit FNV-1a-style fold of `runlogHash`: offset basis 2166136261,
one XOR with the character code followed by `Math.imul` with 16777619 per
character. -/
def fnvFold (s : String) : ℕ :=
  s.data.foldl (fun h c => imul32 (Nat.xor h c.toNat) 16777619) 2166136261

/-- `(hash >>> 0).toString(16).padStart(8, "0")`. -/
def toHex8 (n : ℕ) : String := String.mk (padZero 8 (natHexDigits n))

/-! #### Injection of the typed RunLog into the JSON tree.

Object literal key orders follow the source; they are immaterial to the
hash, which sorts keys. -/

def jsonOfStringList (l : List String) : JValue := .jarr (l.map .jstr)

def jsonOfRecord (m : List (String × ℚ)) : JValue :=
  .jobj (m.map (fun kv => (kv.1, .jnum kv.2)))

def jsonOfParams (p : PipelineParams) : JValue :=
  .jobj
    [ ("nodeCount", .jnum (p.nodeCount : ℚ))
    , ("edgeDensity", .jnum p.edgeDensity)
    , ("overlapPercent", .jnum p.overlapPercent)
    , ("seed", .jnum (p.seed : ℚ))
    , ("recursionDepth", .jnum (p.recursionDepth : ℚ))
    , ("rigidity", .jnum p.rigidity)
    , ("beamWidth", .jnum (p.beamWidth : ℚ))
    , ("activationThreshold", .jnum p.activationThreshold)
    , ("contextBlend", .jnum p.contextBlend)
    , ("weightLearningRate", .jnum p.weightLearningRate)
    , ("driftBias", .jnum p.driftBias) ]

def jsonOfBeam (c : BeamCandidate) : JValue :=
  .jobj
    [ ("nodePath", jsonOfStringList c.nodePath)
    , ("edgePath", jsonOfStringList c.edgePath)
    , ("score", .jnum c.score) ]

def jsonOfScored (s : ScoredId) : JValue :=
  .jobj [("id", .jstr s.id), ("score", .jnum s.score)]

def jsonOfInterp (i : InterpretationSummary) : JValue :=
  .jobj
    [ ("topNodes", .jarr (i.topNodes.map jsonOfScored))
    , ("topEdges", .jarr (i.topEdges.map jsonOfScored))
    , ("centroid", jsonOfRecord i.centroid) ]

def jsonOfStep (s : StepRunLog) : JValue :=
  .jobj
    [ ("step", .jnum (s.step : ℚ))
    , ("seed", .jnum (s.seed : ℚ))
    , ("params", jsonOfParams s.params)
    , ("activeSet", jsonOfStringList s.activeSet)
    , ("prunedNodes", jsonOfStringList s.prunedNodes)
    , ("prunedEdges", jsonOfStringList s.prunedEdges)
    , ("beamCandidates", .jarr (s.beamCandidates.map jsonOfBeam))
    , ("interpretation", jsonOfInterp s.interpretation)
    , ("activationVector", jsonOfRecord s.activationVector)
    , ("edgeWeights", jsonOfRecord s.edgeWeights)
    , ("delta", .jnum s.delta) ]

def runlogToJson (log : RunLog) : JValue :=
  .jobj
    [ ("model", .jstr log.model)
    , ("createdAt", .jstr log.createdAt)
    , ("params", jsonOfParams log.params)
    , ("steps", .jarr (log.steps.map jsonOfStep)) ]

/-- `runlogHash(runlog)` from hash.ts. -/
def runlogHash (E : MathEnv) (log : RunLog) : String :=
  toHex8 (fnvFold (stableStringify E (runlogToJson log)))

mutual

/-- Every object layer of the JSON tree has pairwise distinct keys (always
true of trees produced from JavaScript objects). -/
def jsonNodupKeys : JValue → Bool
  | .jnull => true
  | .jbool _ => true
  | .jnum _ => true
  | .jstr _ => true
  | .jarr items => jsonNodupKeysItems items
  | .jobj fields =>
    decide ((fields.map (fun kv => kv.1)).Nodup) && jsonNodupKeysFields fields

/-- `jsonNodupKeys` over the items of an array. -/
def jsonNodupKeysItems : List JValue → Bool
  | [] => true
  | v :: vs => jsonNodupKeys v && jsonNodupKeysItems vs

/-- `jsonNodupKeys` over the values of an object's fields. -/
def jsonNodupKeysFields : List (String × JValue) → Bool
  | [] => true
  | (_, v) :: rest => jsonNodupKeys v && jsonNodupKeysFields rest

end

mutual

/-- `KeyPerm v w` (defined mutually with its pointwise list versions):
`w` is `v` with the insertion order of the fields of any object layer
permuted (keys and values untouched otherwise). -/
inductive KeyPerm : JValue → JValue → Prop where
  | jnull : KeyPerm .jnull .jnull
  | jbool (b : Bool) : KeyPerm (.jbool b) (.jbool b)
  | jnum (q : ℚ) : KeyPerm (.jnum q) (.jnum q)
  | jstr (s : String) : KeyPerm (.jstr s) (.jstr s)
  | jarr {xs ys : List JValue} (h : KeyPermList xs ys) :
      KeyPerm (.jarr xs) (.jarr ys)
  | jobj {l m p : List (String × JValue)}
      (h : KeyPermFields l m) (hp : m.Perm p) : KeyPerm (.jobj l) (.jobj p)

inductive KeyPermList : List JValue → List JValue → Prop where
  | nil : KeyPermList [] []
  | cons {x y : JValue} {xs ys : List JValue} (h : KeyPerm x y)
      (t : KeyPermList xs ys) : KeyPermList (x :: xs) (y :: ys)

inductive KeyPermFields :
    List (String × JValue) → List (String × JValue) → Prop where
  | nil : KeyPermFields [] []
  | cons {k : String} {v w : JValue} {l m : List (String × JValue)}
      (h : KeyPerm v w) (t : KeyPermFields l m) :
      KeyPermFields ((k, v) :: l) ((k, w) :: m)

end

/-! ### Spec-side definitions

These follow the wording of the specification (§4.3, §4.5); the refinement
claims compare them with the source-derived definitions above. -/

/-- The edges incident to a node, as the spec words it. -/
def specIncidentEdges (graph : Graph) (id : String) : List Edge :=
  graph.edges.filter (fun e => e.source == id || e.target == id)

/-- Spec §4.3: mean edge weight over incident edges, `0` if isolated. -/
def degreeScoreSpec (graph : Graph) (node : Node) : ℚ :=
  let inc := specIncidentEdges graph node.id
  if inc = [] then 0 else (inc.map (fun e => e.weight)).sum / (inc.length : ℚ)

/-- Spec §4.3: `raw = contextBlend*contextScore + (1-contextBlend)*degreeScore + noveltyBonus`. -/
def rawSpec (graph : Graph) (context : List (String × ℚ))
    (params : PipelineParams) (node : Node) : ℚ :=
  params.contextBlend * getD context node.id 0
    + (1 - params.contextBlend) * degreeScoreSpec graph node
    + (if node.novelty then 0.08 else 0)

/-- Spec §4.5: every current candidate extends along every incident edge to
a neighbor not already in that candidate's node path, with
`score = round(parentScore + neighborScore + edgeWeight, 3)`. -/
def specRound (graph : Graph) (scores : List (String × ℚ))
    (cands : List BeamCandidate) : List BeamCandidate :=
  cands.flatMap (fun c =>
    match c.nodePath.getLast? with
    | none => []
    | some tail =>
      (specIncidentEdges graph tail).filterMap (fun edge =>
        let next := if edge.source == tail then edge.target else edge.source
        if c.nodePath.contains next then none
        else some
          { nodePath := c.nodePath ++ [next]
            edgePath := c.edgePath ++ [edge.id]
            score := round3 (c.score + getD scores next 0 + edge.weight) }))

/-- Spec §4.5, as one fold: exactly 3 expansion rounds independent of
`recursionDepth`; each round pools all expansions, stops if none were
produced, otherwise sorts descending by score with ties broken by the
concatenated node-path string and truncates to the top `beamWidth`. -/
def beamReconstructSpec (graph : Graph) (scores : List (String × ℚ))
    (activeSet : List String) (beamWidth : ℕ) : List BeamCandidate :=
  let seeds := if activeSet.isEmpty
    then (graph.nodes.take (min 3 graph.nodes.length)).map (fun n => n.id)
    else activeSet
  let start := seeds.map (fun s =>
    { nodePath := [s], edgePath := [], score := getD scores s 0 : BeamCandidate })
  (List.range 3).foldl (fun cands _round =>
    let pool := specRound graph scores cands
    if pool = [] then cands
    else (pool.mergeSort beamLe).take beamWidth) start

/-! ### Concrete fixtures used by the witness theorems -/

/-- A concrete environment: every property a theorem assumes of the foreign
primitives is checked for it in the corresponding witness. -/
def E0 : MathEnv :=
  { exp := fun _ => 1
    sqrt := fun q => q
    sin := fun _ => 0
    numToString := fun _ => "0" }

def testParams : PipelineParams :=
  { seed := 1
    nodeCount := 1
    edgeDensity := 1
    overlapPercent := 0.5
    recursionDepth := 2
    rigidity := 0.3
    beamWidth := 2
    activationThreshold := 0.4
    contextBlend := 0.5
    weightLearningRate := 0.2
    driftBias := 0.1 }

/-- A default `StepRunLog` used with `List.getD`. -/
def emptyStep : StepRunLog :=
  { step := 0
    seed := 0
    params := testParams
    activeSet := []
    prunedNodes := []
    prunedEdges := []
    beamCandidates := []
    interpretation := { topNodes := [], topEdges := [], centroid := [] }
    activationVector := []
    edgeWeights := []
    delta := 0 }

def mkPlainNode (s : String) : Node := { id := s, prior := true, novelty := false }

/-- Four isolated nodes: no kept edge is incident to any seed. -/
def isolatedGraph : Graph :=
  { nodes := [mkPlainNode "a", mkPlainNode "b", mkPlainNode "c", mkPlainNode "d"]
    edges := [] }

def isolatedScores : List (String × ℚ) :=
  [("a", 0.9), ("b", 0.8), ("c", 0.7), ("d", 0.6)]

/-- A two-node graph with one edge, for the beam witnesses. -/
def smallGraph : Graph :=
  { nodes := [mkPlainNode "a", mkPlainNode "b"]
    edges := [{ id := "a->b", source := "a", target := "b", weight := 0.5, prior := true }] }

/-- A small run log with no steps, for the hash witnesses. -/
def smallLog : RunLog :=
  { model := "m", createdAt := "t", params := testParams, steps := [] }

/-- `runlogToJson smallLog` with the two leading top-level fields' insertion
order swapped. -/
def smallLogJsonSwapped : JValue :=
  .jobj
    [ ("createdAt", .jstr "t")
    , ("model", .jstr "m")
    , ("params", jsonOfParams testParams)
    , ("steps", .jarr []) ]

/-! ### Auxiliary definitions used by the proofs -/

/-- Numeric value of a decimal digit character. -/
def digitVal (c : Char) : ℕ := c.toNat - 48

/-- Value of a decimal digit string (leading zeros allowed). -/
def decVal (l : List Char) : ℕ := l.foldl (fun a c => 10 * a + digitVal c) 0

/-- The delta bookkeeping of the run loop, as a chained predicate: the
first record's delta matches the incoming previous activation vector
(`0` when there is none), and each subsequent record's delta is the rounded
L2 distance to the preceding record's activation vector. -/
def deltaChain (E : MathEnv) :
    Option (List (String × ℚ)) → List StepRunLog → Prop
  | _, [] => True
  | prev, e :: rest =>
    e.delta = (match prev with
      | none => (0 : ℚ)
      | some p => round3 (l2Distance E p e.activationVector))
    ∧ deltaChain E (some e.activationVector) rest

/-! ## Lemmas -/

/-! ### Rounding and clamping bounds -/

theorem round3_nonneg {q : ℚ} (h : 0 ≤ q) : 0 ≤ round3 q := by
  unfold round3
  have h1 : (0 : ℚ) ≤ q * 1000 + 1 / 2 := by nlinarith
  have h2 : (0 : ℤ) ≤ ⌊q * 1000 + 1 / 2⌋ := by
    rw [Int.le_floor]
    exact_mod_cast h1
  positivity

theorem round3_le_one {q : ℚ} (h : q ≤ 1) : round3 q ≤ 1 := by
  unfold round3
  have h1 : q * 1000 + 1 / 2 ≤ 2001 / 2 := by nlinarith
  have h2 : (⌊q * 1000 + 1 / 2⌋ : ℤ) ≤ 1000 := by
    calc (⌊q * 1000 + 1 / 2⌋ : ℤ) ≤ ⌊(2001 / 2 : ℚ)⌋ := Int.floor_le_floor h1
    _ = 1000 := by rw [Int.floor_eq_iff]; norm_num
  rw [div_le_one (by norm_num)]
  exact_mod_cast h2

theorem clamp01_nonneg (q : ℚ) : 0 ≤ clamp01 q := by
  unfold clamp01
  simp only [le_min_iff, le_max_iff]
  exact ⟨by norm_num, Or.inl le_rfl⟩

theorem clamp01_le_one (q : ℚ) : clamp01 q ≤ 1 := min_le_left _ _

theorem round3_clamp01_bounds (q : ℚ) :
    0 ≤ round3 (clamp01 q) ∧ round3 (clamp01 q) ≤ 1 :=
  ⟨round3_nonneg (clamp01_nonneg q), round3_le_one (clamp01_le_one q)⟩

/-! ### RNG value bounds -/

theorem U32_eq : U32 = 2 ^ 32 := by norm_num [U32]

theorem U32_pos : 0 < U32 := by norm_num [U32]

theorem rngStep_val_bounds (s : ℕ) :
    0 ≤ (rngStep s).2 ∧ (rngStep s).2 < 1 := by
  unfold rngStep
  simp only
  set s' := (s + 0x6d2b79f5) % U32 with hs
  set t1 := imul32 (Nat.xor s' (s' >>> 15)) (s' ||| 1) with ht1
  set x := (t1 + imul32 (Nat.xor t1 (t1 >>> 7)) (t1 ||| 61)) % U32 with hx
  set t2 := Nat.xor t1 x with ht2
  have h1 : t1 < 2 ^ 32 := by rw [ht1, ← U32_eq]; exact Nat.mod_lt _ U32_pos
  have h2 : x < 2 ^ 32 := by rw [hx, ← U32_eq]; exact Nat.mod_lt _ U32_pos
  have h3 : t2 < 2 ^ 32 := Nat.xor_lt_two_pow h1 h2
  have h4 : t2 >>> 14 < 2 ^ 32 :=
    lt_of_le_of_lt (by rw [Nat.shiftRight_eq_div_pow]; exact Nat.div_le_self _ _) h3
  have h5 : Nat.xor t2 (t2 >>> 14) < U32 := U32_eq ▸ Nat.xor_lt_two_pow h3 h4
  have hUq : (0 : ℚ) < (U32 : ℚ) := by exact_mod_cast U32_pos
  constructor
  · exact div_nonneg (Nat.cast_nonneg _) (le_of_lt hUq)
  · rw [div_lt_one hUq]
    exact_mod_cast h5

/-! ### State-threading traversal lemmas -/

theorem mapState_out_mem {f : σ → α → σ × Option β} :
    ∀ {s : σ} {l : List α} {b : β}, b ∈ (mapState f s l).2 →
      ∃ s' a, a ∈ l ∧ (f s' a).2 = some b := by
  intro s l
  induction l generalizing s with
  | nil => intro b h; simp [mapState] at h
  | cons a as ih =>
    intro b h
    simp only [mapState] at h
    rcases hfa : (f s a).2 with _ | b'
    · rw [hfa] at h
      obtain ⟨s', a', ha', hb⟩ := ih h
      exact ⟨s', a', List.mem_cons_of_mem _ ha', hb⟩
    · rw [hfa] at h
      rcases List.mem_cons.mp h with h | h
      · exact ⟨s, a, List.mem_cons_self _ _, h ▸ hfa⟩
      · obtain ⟨s', a', ha', hb⟩ := ih h
        exact ⟨s', a', List.mem_cons_of_mem _ ha', hb⟩

theorem mapState_map_sublist {f : σ → α × α → σ × Option β}
    {g : β → γ} {h : α × α → γ}
    (hgh : ∀ s a b, (f s a).2 = some b → g b = h a) :
    ∀ (s : σ) (l : List (α × α)),
      ((mapState f s l).2.map g).Sublist (l.map h) := by
  intro s l
  induction l generalizing s with
  | nil => simp [mapState]
  | cons a as ih =>
    simp only [mapState, List.map_cons]
    rcases hfa : (f s a).2 with _ | b
    · simp only [hfa]
      exact List.Sublist.cons (h a) (ih _)
    · simp only [hfa, List.map_cons, hgh s a b hfa]
      exact List.Sublist.cons₂ (h a) (ih _)

theorem mapState_all_some_map {f : σ → α → σ × Option β}
    {g : β → γ} {h : α → γ}
    (hgh : ∀ s a, ∃ b, (f s a).2 = some b ∧ g b = h a) :
    ∀ (s : σ) (l : List α), (mapState f s l).2.map g = l.map h := by
  intro s l
  induction l generalizing s with
  | nil => simp [mapState]
  | cons a as ih =>
    obtain ⟨b, hb, hg⟩ := hgh s a
    simp only [mapState, hb, List.map_cons, hg, ih]

/-! ### Range invariants of generated and updated values -/

theorem edgeStep_weight_bounds {params : PipelineParams} {s : ℕ}
    {p : Node × Node} {e : Edge} (h : (edgeStep params s p).2 = some e) :
    0 ≤ e.weight ∧ e.weight ≤ 1 := by
  unfold edgeStep at h
  simp only at h
  split at h
  · simp only [Option.some.injEq] at h
    obtain ⟨h0, h1⟩ := rngStep_val_bounds (rngStep s).1
    subst h
    refine ⟨round3_nonneg (by nlinarith), round3_le_one (by nlinarith)⟩
  · simp at h

theorem ctxStep_val_bounds {s : ℕ} {node : Node} {kv : String × ℚ}
    (h : (ctxStep s node).2 = some kv) : 0 ≤ kv.2 ∧ kv.2 ≤ 1 := by
  unfold ctxStep at h
  simp only [Option.some.injEq] at h
  obtain ⟨h0, h1⟩ := rngStep_val_bounds s
  subst h
  constructor
  · apply round3_nonneg
    split <;> split <;> nlinarith
  · apply round3_le_one
    split <;> split <;> nlinarith

theorem generateGraph_weight_bounds (seed : ℕ) (params : PipelineParams) :
    ∀ e ∈ (generateGraph seed params).1.edges, 0 ≤ e.weight ∧ e.weight ≤ 1 := by
  intro e he
  unfold generateGraph at he
  simp only at he
  obtain ⟨s', a, _, hfa⟩ := mapState_out_mem he
  exact edgeStep_weight_bounds hfa

theorem generateGraph_context_bounds (seed : ℕ) (params : PipelineParams) :
    ∀ kv ∈ (generateGraph seed params).2, 0 ≤ kv.2 ∧ kv.2 ≤ 1 := by
  intro kv hkv
  unfold generateGraph at hkv
  simp only at hkv
  obtain ⟨s', a, _, hfa⟩ := mapState_out_mem hkv
  exact ctxStep_val_bounds hfa

theorem updateWeights_weight_bounds (graph : Graph) (scores : List (String × ℚ))
    (params : PipelineParams) (stepSeed : ℕ) :
    ∀ e ∈ (updateWeights graph scores params stepSeed).edges,
      0 ≤ e.weight ∧ e.weight ≤ 1 := by
  intro e he
  unfold updateWeights at he
  simp only at he
  obtain ⟨s', a, _, hfa⟩ := mapState_out_mem he
  simp only [Option.some.injEq] at hfa
  subst hfa
  exact round3_clamp01_bounds _

theorem updateWeights_edge_ids (graph : Graph) (scores : List (String × ℚ))
    (params : PipelineParams) (stepSeed : ℕ) :
    (updateWeights graph scores params stepSeed).edges.map Edge.id
      = graph.edges.map Edge.id := by
  unfold updateWeights
  simp only
  refine mapState_all_some_map (fun s e => ?_) _ _
  refine ⟨_, rfl, ?_⟩
  rfl

theorem contextPerturb_bounds (E : MathEnv) (params : PipelineParams)
    (step : ℕ) (context : List (String × ℚ)) :
    ∀ kv ∈ contextPerturb E params step context, 0 ≤ kv.2 ∧ kv.2 ≤ 1 := by
  intro kv hkv
  unfold contextPerturb at hkv
  obtain ⟨p, _, rfl⟩ := List.mem_map.mp hkv
  exact round3_clamp01_bounds _

theorem contextPerturb_keys (E : MathEnv) (params : PipelineParams)
    (step : ℕ) (context : List (String × ℚ)) :
    (contextPerturb E params step context).map Prod.fst
      = context.map Prod.fst := by
  unfold contextPerturb
  rw [List.map_map]
  have : (Prod.fst ∘ fun p : ℕ × String × ℚ =>
      (p.2.1, round3 (clamp01 (p.2.2
        + E.sin ((((step + 1) * (p.1 + 1) : ℕ) : ℚ)) * 0.005
        + params.driftBias * 0.01))))
      = Prod.fst ∘ Prod.snd := rfl
  rw [this, ← List.map_map, List.enum_map_snd]

theorem stateAt_invariants (E : MathEnv) (params : PipelineParams) :
    ∀ k : ℕ,
      (∀ e ∈ (stateAt E params k).1.edges, 0 ≤ e.weight ∧ e.weight ≤ 1) ∧
      (∀ kv ∈ (stateAt E params k).2, 0 ≤ kv.2 ∧ kv.2 ≤ 1) ∧
      ((stateAt E params k).2.map Prod.fst
        = (generateGraph params.seed params).2.map Prod.fst) := by
  intro k
  induction k with
  | zero =>
    refine ⟨?_, ?_, rfl⟩
    · exact generateGraph_weight_bounds params.seed params
    · exact generateGraph_context_bounds params.seed params
  | succ k ih =>
    refine ⟨?_, ?_, ?_⟩
    · exact updateWeights_weight_bounds _ _ _ _
    · exact contextPerturb_bounds _ _ _ _
    · rw [show (stateAt E params (k + 1)).2
          = contextPerturb E params k (stateAt E params k).2 from rfl,
        contextPerturb_keys]
      exact ih.2.2

theorem runLoop_edgeWeights_bounds (E : MathEnv) (params : PipelineParams) :
    ∀ (rem step : ℕ) (graph : Graph) (context : List (String × ℚ))
      (prev : Option (List (String × ℚ))),
      (∀ e ∈ graph.edges, 0 ≤ e.weight ∧ e.weight ≤ 1) →
      ∀ s ∈ (runLoop E params rem step graph context prev).1,
        ∀ kv ∈ s.edgeWeights, 0 ≤ kv.2 ∧ kv.2 ≤ 1 := by
  intro rem
  induction rem with
  | zero => intro step g c prev _ s hs; simp [runLoop] at hs
  | succ rem ih =>
    intro step g c prev hg s hs
    have hentry : ∀ kv ∈ (stepRecord E params step g c prev).edgeWeights,
        0 ≤ kv.2 ∧ kv.2 ≤ 1 := by
      intro kv hkv
      simp only [stepRecord, toEdgeWeightMap] at hkv
      obtain ⟨e, he, rfl⟩ := List.mem_map.mp hkv
      exact hg e he
    rcases rem with _ | r
    · simp only [runLoop, List.mem_singleton] at hs
      subst hs
      exact hentry
    · simp only [runLoop, List.mem_cons] at hs
      rcases hs with rfl | hs
      · exact hentry
      · exact ih _ _ _ _ (updateWeights_weight_bounds _ _ _ _) s hs

/-- Claim C9: every edge weight and every context value stays in `[0,1]`
at every step of every run — generation produces values in range, the
weight update clamps to `[0,1]` before rounding, the context update clamps
each perturbed entry to `[0,1]` before rounding, and the context update
never adds or removes keys. -/
theorem claim_C9_value_ranges (E : MathEnv) (params : PipelineParams) (k : ℕ) :
    (∀ e ∈ (stateAt E params k).1.edges, 0 ≤ e.weight ∧ e.weight ≤ 1) ∧
    (∀ kv ∈ (stateAt E params k).2, 0 ≤ kv.2 ∧ kv.2 ≤ 1) ∧
    ((stateAt E params k).2.map Prod.fst
      = (stateAt E params 0).2.map Prod.fst) ∧
    (∀ s ∈ (runPipeline E params).runlog.steps,
      ∀ kv ∈ s.edgeWeights, 0 ≤ kv.2 ∧ kv.2 ≤ 1) := by
  obtain ⟨h1, h2, h3⟩ := stateAt_invariants E params k
  refine ⟨h1, h2, h3, ?_⟩
  intro s hs
  have hs' : s ∈ (runLoop E params params.recursionDepth 0
      (generateGraph params.seed params).1
      (generateGraph params.seed params).2 none).1 := hs
  exact runLoop_edgeWeights_bounds E params _ _ _ _ _
    (generateGraph_weight_bounds params.seed params) s hs'

/-! ### The delta chain of the run loop -/

theorem runLoop_deltaChain (E : MathEnv) (params : PipelineParams) :
    ∀ (rem step : ℕ) (graph : Graph) (context : List (String × ℚ))
      (prev : Option (List (String × ℚ))),
      deltaChain E prev (runLoop E params rem step graph context prev).1 := by
  intro rem
  induction rem with
  | zero => intro step g c prev; simp [runLoop, deltaChain]
  | succ rem ih =>
    intro step g c prev
    have hhead : (stepRecord E params step g c prev).delta
        = (match prev with
          | none => (0 : ℚ)
          | some p => round3 (l2Distance E p
              (stepRecord E params step g c prev).activationVector)) := by
      cases prev <;> rfl
    rcases rem with _ | r
    · exact ⟨hhead, trivial⟩
    · exact ⟨hhead, ih _ _ _ _⟩

theorem deltaChain_head_none {E : MathEnv} {l : List StepRunLog}
    (h : deltaChain E none l) (hl : 0 < l.length) :
    (l.getD 0 emptyStep).delta = 0 := by
  cases l with
  | nil => simp at hl
  | cons e rest => exact h.1

theorem deltaChain_head_some {E : MathEnv} {p : List (String × ℚ)}
    {l : List StepRunLog} (h : deltaChain E (some p) l) (hl : 0 < l.length) :
    (l.getD 0 emptyStep).delta
      = round3 (l2Distance E p ((l.getD 0 emptyStep).activationVector)) := by
  cases l with
  | nil => simp at hl
  | cons e rest => exact h.1

theorem deltaChain_step {E : MathEnv} :
    ∀ {l : List StepRunLog} {prev : Option (List (String × ℚ))},
      deltaChain E prev l → ∀ i : ℕ, i + 1 < l.length →
      (l.getD (i + 1) emptyStep).delta
        = round3 (l2Distance E ((l.getD i emptyStep).activationVector)
            ((l.getD (i + 1) emptyStep).activationVector)) := by
  intro l
  induction l with
  | nil => intro prev _ i hi; simp at hi
  | cons e rest ih =>
    intro prev h i hi
    rcases i with _ | j
    · have hr : 0 < rest.length := by
        simp only [List.length_cons] at hi
        omega
      simpa using deltaChain_head_some h.2 hr
    · have hj : j + 1 < rest.length := by
        simp only [List.length_cons] at hi
        omega
      simpa using ih h.2 j hj

/-- Claim C2: the first step's stored delta is exactly 0, and every later
step's stored delta is the (rounded to 3 decimals) L2 distance between the
previous and current activation-score maps, as computed by `l2Distance`
(keys missing from one side contribute 0). -/
theorem claim_C2_delta_chain (E : MathEnv) (params : PipelineParams) (i : ℕ)
    (hi : i < (runPipeline E params).runlog.steps.length) :
    ((runPipeline E params).runlog.steps.getD i emptyStep).delta =
      if i = 0 then 0
      else round3 (l2Distance E
        (((runPipeline E params).runlog.steps.getD (i - 1) emptyStep).activationVector)
        (((runPipeline E params).runlog.steps.getD i emptyStep).activationVector)) := by
  have hch : deltaChain E none (runPipeline E params).runlog.steps :=
    runLoop_deltaChain E params params.recursionDepth 0 _ _ none
  rcases i with _ | j
  · simpa using deltaChain_head_none hch hi
  · simpa using deltaChain_step hch j hi

/-- Witness for C2 at a concrete two-step run. -/
theorem claim_C2_delta_chain_witness :
    1 < (runPipeline E0 testParams).runlog.steps.length ∧
    ((runPipeline E0 testParams).runlog.steps.getD 1 emptyStep).delta =
      if (1 : ℕ) = 0 then 0
      else round3 (l2Distance E0
        (((runPipeline E0 testParams).runlog.steps.getD 0 emptyStep).activationVector)
        (((runPipeline E0 testParams).runlog.steps.getD 1 emptyStep).activationVector)) :=
  ⟨by decide, claim_C2_delta_chain E0 testParams 1 (by decide)⟩

/-! ### The pruner's subset invariant -/

theorem applyRigidity_active_subset (graph : Graph) (scores : List (String × ℚ))
    (params : PipelineParams) (hr : params.rigidity ≤ 1)
    (ht : 0 ≤ params.activationThreshold) :
    ∀ id ∈ (applyRigidity graph scores params).activeSet,
      id ∈ (applyRigidity graph scores params).keptGraph.nodes.map Node.id := by
  intro id hid
  unfold applyRigidity at hid ⊢
  simp only [List.mem_map, List.mem_filter] at hid ⊢
  obtain ⟨node, ⟨hmem, hact⟩, rfl⟩ := hid
  refine ⟨node, ⟨hmem, ?_⟩, rfl⟩
  unfold jsGe at hact ⊢
  rcases hl : lookup? scores node.id with _ | v
  · rw [hl] at hact; simp at hact
  · rw [hl] at hact
    simp only [decide_eq_true_eq] at hact ⊢
    calc params.activationThreshold * params.rigidity
        ≤ params.activationThreshold := mul_le_of_le_one_right ht hr
      _ ≤ v := hact

/-- Claim C4: at every step of every run with `rigidity ≤ 1` and
`activationThreshold ≥ 0`, the active set is a subset of the node set kept
in `keptGraph`. -/
theorem claim_C4_active_subset_kept (E : MathEnv) (params : PipelineParams)
    (hr : params.rigidity ≤ 1) (ht : 0 ≤ params.activationThreshold) (k : ℕ) :
    ∀ id ∈ (applyRigidity (stateAt E params k).1
        (activationScores E (stateAt E params k).1 (stateAt E params k).2 params)
        params).activeSet,
      id ∈ (applyRigidity (stateAt E params k).1
        (activationScores E (stateAt E params k).1 (stateAt E params k).2 params)
        params).keptGraph.nodes.map Node.id :=
  applyRigidity_active_subset _ _ _ hr ht

/-- Witness for C4 at a concrete run state. -/
theorem claim_C4_active_subset_kept_witness :
    testParams.rigidity ≤ 1 ∧ 0 ≤ testParams.activationThreshold ∧
    (∀ id ∈ (applyRigidity (stateAt E0 testParams 0).1
        (activationScores E0 (stateAt E0 testParams 0).1 (stateAt E0 testParams 0).2 testParams)
        testParams).activeSet,
      id ∈ (applyRigidity (stateAt E0 testParams 0).1
        (activationScores E0 (stateAt E0 testParams 0).1 (stateAt E0 testParams 0).2 testParams)
        testParams).keptGraph.nodes.map Node.id) :=
  ⟨by norm_num [testParams], by norm_num [testParams],
    claim_C4_active_subset_kept E0 testParams (by norm_num [testParams])
      (by norm_num [testParams]) 0⟩

/-! ### Beam seeding and the empty first round -/

/-- Claim C8: with an empty active set, beam reconstruction seeds from the
first `min(3, |nodes|)` nodes of the (pruned) graph in graph order, one
single-node candidate per seed scored by its own activation score; with a
non-empty active set the seeds are exactly the active set. -/
theorem claim_C8_beam_seeding (graph : Graph) (scores : List (String × ℚ))
    (activeSet : List String) (beamWidth : ℕ) :
    (activeSet = [] → beamReconstruct graph scores activeSet beamWidth
      = beamLoop graph scores beamWidth 3 (initialBeams scores
          ((graph.nodes.take (min 3 graph.nodes.length)).map (fun n => n.id)))) ∧
    (activeSet ≠ [] → beamReconstruct graph scores activeSet beamWidth
      = beamLoop graph scores beamWidth 3 (initialBeams scores activeSet)) := by
  constructor
  · intro h
    subst h
    rfl
  · intro h
    unfold beamReconstruct beamSeedIds
    rw [if_pos (by simpa [List.length_pos] using h)]

/-- Witness for C8 in both the empty and the non-empty case. -/
theorem claim_C8_beam_seeding_witness :
    (beamReconstruct isolatedGraph isolatedScores [] 2
      = beamLoop isolatedGraph isolatedScores 2 3 (initialBeams isolatedScores
          ((isolatedGraph.nodes.take (min 3 isolatedGraph.nodes.length)).map (fun n => n.id)))) ∧
    (beamReconstruct isolatedGraph isolatedScores ["a"] 2
      = beamLoop isolatedGraph isolatedScores 2 3 (initialBeams isolatedScores ["a"])) :=
  ⟨(claim_C8_beam_seeding isolatedGraph isolatedScores [] 2).1 rfl,
    (claim_C8_beam_seeding isolatedGraph isolatedScores ["a"] 2).2 (by decide)⟩

/-- Claim C10: when the first expansion round produces no expansion, beam
reconstruction returns exactly the initial seed candidates — one
single-node candidate per seed — so the result's length is the seed count
(which may exceed `beamWidth`). -/
theorem claim_C10_empty_first_round (graph : Graph) (scores : List (String × ℚ))
    (activeSet : List String) (beamWidth : ℕ)
    (h : beamRound graph scores
      (initialBeams scores (beamSeedIds graph activeSet)) = []) :
    beamReconstruct graph scores activeSet beamWidth
        = initialBeams scores (beamSeedIds graph activeSet) ∧
    (beamReconstruct graph scores activeSet beamWidth).length
        = (beamSeedIds graph activeSet).length := by
  have hres : beamReconstruct graph scores activeSet beamWidth
      = initialBeams scores (beamSeedIds graph activeSet) := by
    unfold beamReconstruct beamLoop
    simp [h]
  refine ⟨hres, ?_⟩
  rw [hres]
  unfold initialBeams
  exact List.length_map _ _

/-- Witness for C10: four isolated seeds with beam width 1 survive the
empty first round untruncated. -/
theorem claim_C10_empty_first_round_witness :
    beamRound isolatedGraph isolatedScores
      (initialBeams isolatedScores (beamSeedIds isolatedGraph ["a", "b", "c", "d"])) = [] ∧
    beamReconstruct isolatedGraph isolatedScores ["a", "b", "c", "d"] 1
      = initialBeams isolatedScores (beamSeedIds isolatedGraph ["a", "b", "c", "d"]) ∧
    (beamReconstruct isolatedGraph isolatedScores ["a", "b", "c", "d"] 1).length
      = (beamSeedIds isolatedGraph ["a", "b", "c", "d"]).length ∧
    1 < (beamSeedIds isolatedGraph ["a", "b", "c", "d"]).length :=
  ⟨by decide,
    (claim_C10_empty_first_round isolatedGraph isolatedScores _ 1 (by decide)).1,
    (claim_C10_empty_first_round isolatedGraph isolatedScores _ 1 (by decide)).2,
    by decide⟩

/-! ### Beam reconstruction refines the spec description (§4.5) -/

theorem adjGet_filterMap_eq (tail : String) (F : Edge → Option BeamCandidate)
    (hF : ∀ e : Edge, e.source = tail → e.target = tail → F e = none) :
    ∀ edges : List Edge,
      (adjGet edges tail).filterMap F
        = (edges.filter (fun e => e.source == tail || e.target == tail)).filterMap F := by
  intro edges
  induction edges with
  | nil => rfl
  | cons e es ih =>
    have hadj : adjGet (e :: es) tail
        = ((if e.source == tail then [e] else [])
            ++ (if e.target == tail then [e] else [])) ++ adjGet es tail := by
      simp [adjGet]
    rw [hadj, List.filter_cons]
    rcases hs : e.source == tail with _ | _ <;> rcases ht : e.target == tail with _ | _
    · simp only [hs, ht, if_neg Bool.false_ne_true, List.nil_append,
        Bool.or_self, List.filterMap_append]
      simpa using ih
    · simp only [hs, ht, if_neg Bool.false_ne_true, if_pos rfl, List.nil_append,
        Bool.false_or, List.filterMap_append, List.filterMap_cons, List.filterMap_nil]
      cases hFe : F e <;> simp [hFe, ih]
    · simp only [hs, ht, if_pos rfl, if_neg Bool.false_ne_true, List.append_nil,
        Bool.true_or, List.filterMap_append, List.filterMap_cons, List.filterMap_nil]
      cases hFe : F e <;> simp [hFe, ih]
    · have hnone : F e = none :=
        hF e (by simpa using hs) (by simpa using ht)
      simp only [hs, ht, if_pos rfl, Bool.true_or, List.filterMap_append]
      simp [List.filterMap_cons, hnone, ih]

theorem beamRound_eq_specRound (graph : Graph) (scores : List (String × ℚ))
    (beams : List BeamCandidate) :
    beamRound graph scores beams = specRound graph scores beams := by
  unfold beamRound specRound specIncidentEdges
  congr 1
  funext beam
  rcases hlast : beam.nodePath.getLast? with _ | tail
  · rfl
  · simp only
    apply adjGet_filterMap_eq
    intro e hsrc htgt
    have hmem : tail ∈ beam.nodePath := List.mem_of_getLast?_eq_some hlast
    simp only [hsrc, htgt, beq_self_eq_true, if_true]
    rw [if_pos]
    simp only [List.contains, List.elem_iff]
    exact hmem

theorem foldl_const_range {β : Type} (f : β → β) :
    ∀ (n : ℕ) (b : β), (List.range n).foldl (fun acc _ => f acc) b = f^[n] b := by
  intro n
  induction n with
  | zero => intro b; rfl
  | succ n ih =>
    intro b
    rw [List.range_succ, List.foldl_append, ih, Function.iterate_succ_apply']
    rfl

theorem beamLoop_eq_iterate (graph : Graph) (scores : List (String × ℚ))
    (beamWidth : ℕ) :
    ∀ (n : ℕ) (init : List BeamCandidate),
      beamLoop graph scores beamWidth n init
        = (fun cands =>
            if specRound graph scores cands = [] then cands
            else ((specRound graph scores cands).mergeSort beamLe).take beamWidth)^[n] init := by
  intro n
  induction n with
  | zero => intro init; rfl
  | succ n ih =>
    intro init
    rw [Function.iterate_succ_apply]
    show (if (beamRound graph scores init).isEmpty then init
      else beamLoop graph scores beamWidth n
        (((beamRound graph scores init).mergeSort beamLe).take beamWidth)) = _
    rw [beamRound_eq_specRound]
    rcases hpool : specRound graph scores init with _ | ⟨c, cs⟩
    · simp only [List.isEmpty_nil, if_pos rfl, if_true]
      symm
      apply Function.iterate_fixed
      show (if specRound graph scores init = [] then init
        else ((specRound graph scores init).mergeSort beamLe).take beamWidth) = init
      rw [hpool]
      simp
    · simp only [List.isEmpty_cons, if_neg Bool.false_ne_true]
      rw [ih]
      congr 1

/-- Claim C5: `beamReconstruct` coincides with the spec's description of
beam reconstruction — exactly 3 expansion rounds independent of
`recursionDepth`, extending every candidate along every incident edge to a
neighbor not already on its path with score
`round(parent + neighbor + edgeWeight, 3)`, pooling, sorting descending by
score with ties by concatenated path, truncating to `beamWidth`, stopping
early on a round with no expansion. -/
theorem claim_C5_beam_refines_spec (graph : Graph) (scores : List (String × ℚ))
    (activeSet : List String) (beamWidth : ℕ) :
    beamReconstruct graph scores activeSet beamWidth
      = beamReconstructSpec graph scores activeSet beamWidth := by
  unfold beamReconstruct beamReconstructSpec
  have hseeds : beamSeedIds graph activeSet
      = (if activeSet.isEmpty
        then (graph.nodes.take (min 3 graph.nodes.length)).map (fun n => n.id)
        else activeSet) := by
    unfold beamSeedIds
    cases activeSet <;> simp
  rw [hseeds]
  rw [beamLoop_eq_iterate, foldl_const_range
    (fun cands =>
      if specRound graph scores cands = [] then cands
      else ((specRound graph scores cands).mergeSort beamLe).take beamWidth)]
  rfl

/-! ### The hash is always an 8-hex-digit lowercase string -/

theorem fnv_foldl_lt {l : List Char} :
    ∀ {h : ℕ}, h < U32 →
      l.foldl (fun h c => imul32 (Nat.xor h c.toNat) 16777619) h < U32 := by
  induction l with
  | nil => intro h hh; exact hh
  | cons c cs ih =>
    intro h _
    exact ih (Nat.mod_lt _ U32_pos)

theorem fnvFold_lt (s : String) : fnvFold s < U32 := by
  unfold fnvFold
  exact fnv_foldl_lt (by norm_num [U32])

theorem hexDigitChar_mem (d : ℕ) :
    hexDigitChar d ∈ ("0123456789abcdef").data := by
  unfold hexDigitChar
  split <;> decide

theorem hexDigitsAux_length :
    ∀ (fuel : ℕ) {n k : ℕ}, n < fuel → n < 16 ^ k → 0 < k →
      (hexDigitsAux fuel n).length ≤ k := by
  intro fuel
  induction fuel with
  | zero => intro n k hn; omega
  | succ fuel ih =>
    intro n k hn hk hk0
    show (if n < 16 then [hexDigitChar n]
      else hexDigitsAux fuel (n / 16) ++ [hexDigitChar (n % 16)]).length ≤ k
    split
    · simp only [List.length_singleton]
      omega
    · rename_i hge
      rcases k with _ | k'
      · omega
      rcases k' with _ | k''
      · simp at hk
        omega
      have hdiv : n / 16 < fuel :=
        lt_of_lt_of_le (Nat.div_lt_self (by omega) (by omega)) (by omega)
      have hk' : n / 16 < 16 ^ (k'' + 1) := by
        rw [Nat.div_lt_iff_lt_mul (by omega)]
        calc n < 16 ^ (k'' + 2) := hk
          _ = 16 ^ (k'' + 1) * 16 := by ring
      have := ih hdiv hk' (by omega)
      simp only [List.length_append, List.length_singleton]
      omega

theorem hexDigitsAux_chars :
    ∀ (fuel n : ℕ), ∀ c ∈ hexDigitsAux fuel n, c ∈ ("0123456789abcdef").data := by
  intro fuel
  induction fuel with
  | zero => intro n c hc; simp [hexDigitsAux] at hc
  | succ fuel ih =>
    intro n c hc
    have hc' : c ∈ (if n < 16 then [hexDigitChar n]
        else hexDigitsAux fuel (n / 16) ++ [hexDigitChar (n % 16)]) := hc
    clear hc
    rename' hc' => hc
    split at hc
    · simp only [List.mem_singleton] at hc
      exact hc ▸ hexDigitChar_mem n
    · rcases List.mem_append.mp hc with h | h
      · exact ih _ c h
      · simp only [List.mem_singleton] at h
        exact h ▸ hexDigitChar_mem (n % 16)

theorem toHex8_length {n : ℕ} (hn : n < U32) : (toHex8 n).length = 8 := by
  have hlen : (natHexDigits n).length ≤ 8 := by
    unfold natHexDigits
    exact hexDigitsAux_length (n + 1) (Nat.lt_succ_self n)
      (by rw [show (16 : ℕ) ^ 8 = U32 from by norm_num [U32]]; exact hn)
      (by omega)
  show (padZero 8 (natHexDigits n)).length = 8
  unfold padZero
  simp only [List.length_append, List.length_replicate]
  omega

theorem toHex8_chars {n : ℕ} :
    ∀ c ∈ (toHex8 n).data, c ∈ ("0123456789abcdef").data := by
  intro c hc
  have hc' : c ∈ padZero 8 (natHexDigits n) := hc
  unfold padZero at hc'
  rcases List.mem_append.mp hc' with h | h
  · have := List.eq_of_mem_replicate h
    subst this
    decide
  · exact hexDigitsAux_chars _ _ c h

/-- Claim C1: `runPipeline` is a pure function of its parameter record, so
two invocations with identical params produce identical RunLogs and
identical hashes, and `runlogHash` always returns an 8-character lowercase
hexadecimal string. -/
theorem claim_C1_determinism (E : MathEnv) (params : PipelineParams) :
    runPipeline E params = runPipeline E params ∧
    runlogHash E (runPipeline E params).runlog
      = runlogHash E (runPipeline E params).runlog ∧
    (runlogHash E (runPipeline E params).runlog).length = 8 ∧
    ∀ c ∈ (runlogHash E (runPipeline E params).runlog).data,
      c ∈ ("0123456789abcdef").data :=
  ⟨rfl, rfl, toHex8_length (fnvFold_lt _), fun c hc => toHex8_chars c hc⟩

/-! ### Node identifiers are injective and contain no separator -/

theorem digitChar_ne_dash (d : ℕ) : digitChar d ≠ '-' := by
  unfold digitChar
  split <;> decide

theorem digitVal_digitChar {d : ℕ} (hd : d < 10) :
    digitVal (digitChar d) = d := by
  interval_cases d <;> decide

theorem decVal_append_digit (l : List Char) (c : Char) :
    decVal (l ++ [c]) = 10 * decVal l + digitVal c := by
  unfold decVal
  rw [List.foldl_append]
  rfl

theorem decVal_decDigitsAux :
    ∀ (fuel : ℕ) {n : ℕ}, n < fuel → decVal (decDigitsAux fuel n) = n := by
  intro fuel
  induction fuel with
  | zero => intro n hn; omega
  | succ fuel ih =>
    intro n hn
    show decVal (if n < 10 then [digitChar n]
      else decDigitsAux fuel (n / 10) ++ [digitChar (n % 10)]) = n
    split
    · rename_i h10
      show decVal [digitChar n] = n
      unfold decVal
      simp only [List.foldl_cons, List.foldl_nil, Nat.mul_zero, Nat.zero_add]
      exact digitVal_digitChar h10
    · rename_i h10
      rw [decVal_append_digit, ih (by omega), digitVal_digitChar (Nat.mod_lt _ (by omega))]
      omega

theorem decVal_replicate_zero (k : ℕ) (l : List Char) :
    decVal (List.replicate k '0' ++ l) = decVal l := by
  induction k with
  | zero => rfl
  | succ k ih =>
    rw [List.replicate_succ, List.cons_append]
    show (List.replicate k '0' ++ l).foldl (fun a c => 10 * a + digitVal c)
      (10 * 0 + digitVal '0') = decVal l
    have h0 : (10 * 0 + digitVal '0' : ℕ) = 0 := by decide
    rw [h0]
    exact ih

theorem decVal_padZero (k : ℕ) (l : List Char) :
    decVal (padZero k l) = decVal l :=
  decVal_replicate_zero _ _

theorem makeNodeId_inj : Function.Injective makeNodeId := by
  intro i j h
  unfold makeNodeId at h
  have hdata : 'n' :: padZero 3 (natDecDigits i)
      = 'n' :: padZero 3 (natDecDigits j) := by
    have := congrArg String.data h
    simpa using this
  have hpad : padZero 3 (natDecDigits i) = padZero 3 (natDecDigits j) := by
    simp only [List.cons.injEq, true_and] at hdata
    exact hdata
  have hval := congrArg decVal hpad
  rw [decVal_padZero, decVal_padZero] at hval
  unfold natDecDigits at hval
  rw [decVal_decDigitsAux _ (Nat.lt_succ_self i),
    decVal_decDigitsAux _ (Nat.lt_succ_self j)] at hval
  exact hval

theorem decDigitsAux_ne_dash :
    ∀ (fuel n : ℕ), ∀ c ∈ decDigitsAux fuel n, c ≠ '-' := by
  intro fuel
  induction fuel with
  | zero => intro n c hc; simp [decDigitsAux] at hc
  | succ fuel ih =>
    intro n c hc
    have hc' : c ∈ (if n < 10 then [digitChar n]
        else decDigitsAux fuel (n / 10) ++ [digitChar (n % 10)]) := hc
    split at hc'
    · simp only [List.mem_singleton] at hc'
      exact hc' ▸ digitChar_ne_dash n
    · rcases List.mem_append.mp hc' with h | h
      · exact ih _ c h
      · simp only [List.mem_singleton] at h
        exact h ▸ digitChar_ne_dash (n % 10)

theorem makeNodeId_ne_dash (i : ℕ) :
    ∀ c ∈ (makeNodeId i).data, c ≠ '-' := by
  intro c hc
  have hc' : c ∈ 'n' :: padZero 3 (natDecDigits i) := hc
  rcases List.mem_cons.mp hc' with rfl | h
  · decide
  · unfold padZero at h
    rcases List.mem_append.mp h with h | h
    · have := List.eq_of_mem_replicate h
      subst this
      decide
    · exact decDigitsAux_ne_dash _ _ c h

/-! ### Edge identifiers determine the endpoint pair -/

theorem append_dash_inj :
    ∀ (l₁ : List Char) {l₂ r₁ r₂ : List Char},
      (∀ c ∈ l₁, c ≠ '-') → (∀ c ∈ l₂, c ≠ '-') →
      l₁ ++ '-' :: r₁ = l₂ ++ '-' :: r₂ → l₁ = l₂ ∧ r₁ = r₂ := by
  intro l₁
  induction l₁ with
  | nil =>
    intro l₂ r₁ r₂ _ h₂ heq
    cases l₂ with
    | nil => simpa using heq
    | cons b bs =>
      simp only [List.nil_append, List.cons_append, List.cons.injEq] at heq
      exact absurd heq.1.symm (h₂ b (List.mem_cons_self _ _))
  | cons a as ih =>
    intro l₂ r₁ r₂ h₁ h₂ heq
    cases l₂ with
    | nil =>
      simp only [List.nil_append, List.cons_append, List.cons.injEq] at heq
      exact absurd heq.1 (h₁ a (List.mem_cons_self _ _))
    | cons b bs =>
      simp only [List.cons_append, List.cons.injEq] at heq
      obtain ⟨rfl, heq'⟩ := heq
      obtain ⟨h1, h2⟩ := ih (fun c hc => h₁ c (List.mem_cons_of_mem _ hc))
        (fun c hc => h₂ c (List.mem_cons_of_mem _ hc)) heq'
      exact ⟨by rw [h1], h2⟩

theorem pair_id_inj {s t u v : String}
    (hs : ∀ c ∈ s.data, c ≠ '-') (hu : ∀ c ∈ u.data, c ≠ '-')
    (h : s ++ "->" ++ t = u ++ "->" ++ v) : s = u ∧ t = v := by
  have hdata : s.data ++ '-' :: '>' :: t.data = u.data ++ '-' :: '>' :: v.data := by
    have := congrArg String.data h
    simpa [String.data_append] using this
  obtain ⟨h1, h2⟩ := append_dash_inj s.data hs hu hdata
  refine ⟨String.ext h1, ?_⟩
  simp only [List.cons.injEq, true_and] at h2
  exact String.ext h2

/-! ### No duplicate edge identifiers -/

theorem string_append_right_injective (pre : String) :
    Function.Injective (fun s : String => pre ++ s) := by
  intro a b h
  apply String.ext
  have := congrArg String.data h
  simp only [String.data_append] at this
  exact List.append_cancel_left this

theorem pairsOf_mem {nodes : List Node} :
    ∀ p ∈ pairsOf nodes, p.1 ∈ nodes ∧ p.2 ∈ nodes := by
  induction nodes with
  | nil => intro p hp; simp [pairsOf] at hp
  | cons n rest ih =>
    intro p hp
    unfold pairsOf at hp
    rcases List.mem_append.mp hp with h | h
    · obtain ⟨m, hm, rfl⟩ := List.mem_map.mp h
      exact ⟨List.mem_cons_self _ _, List.mem_cons_of_mem _ hm⟩
    · obtain ⟨h1, h2⟩ := ih p h
      exact ⟨List.mem_cons_of_mem _ h1, List.mem_cons_of_mem _ h2⟩

theorem pairsOf_ids_nodup :
    ∀ (nodes : List Node),
      (nodes.map Node.id).Nodup →
      (∀ n ∈ nodes, ∀ c ∈ n.id.data, c ≠ '-') →
      ((pairsOf nodes).map (fun p => p.1.id ++ "->" ++ p.2.id)).Nodup := by
  intro nodes
  induction nodes with
  | nil => intro _ _; simp [pairsOf]
  | cons n rest ih =>
    intro hnd hdash
    have hnd' : n.id ∉ rest.map Node.id ∧ (rest.map Node.id).Nodup := by
      simpa [List.nodup_cons] using hnd
    unfold pairsOf
    rw [List.map_append, List.nodup_append]
    refine ⟨?_, ?_, ?_⟩
    · rw [List.map_map]
      have hcomp : ((fun p : Node × Node => p.1.id ++ "->" ++ p.2.id)
            ∘ (fun m => (n, m)))
          = (fun s => n.id ++ "->" ++ s) ∘ Node.id := rfl
      rw [hcomp, ← List.map_map]
      refine List.Nodup.map ?_ hnd'.2
      intro a b h
      exact string_append_right_injective (n.id ++ "->") h
    · exact ih hnd'.2 (fun m hm => hdash m (List.mem_cons_of_mem _ hm))
    · intro x hx1 hx2
      obtain ⟨q, hq, rfl⟩ := List.mem_map.mp hx1
      obtain ⟨m, hm, rfl⟩ := List.mem_map.mp hq
      obtain ⟨p, hp, hpid⟩ := List.mem_map.mp hx2
      have hamem := (pairsOf_mem p hp).1
      have heq := pair_id_inj (hdash n (List.mem_cons_self _ _))
        (hdash p.1 (List.mem_cons_of_mem _ hamem)) hpid.symm
      exact hnd'.1 (heq.1 ▸ List.mem_map_of_mem Node.id hamem)

theorem genNodes_ids (params : PipelineParams) :
    (genNodes params).map Node.id = (List.range params.nodeCount).map makeNodeId := by
  unfold genNodes
  rw [List.map_map]
  rfl

theorem genNodes_ids_nodup (params : PipelineParams) :
    ((genNodes params).map Node.id).Nodup := by
  rw [genNodes_ids]
  exact (List.nodup_range _).map makeNodeId_inj

theorem genNodes_ids_ne_dash (params : PipelineParams) :
    ∀ n ∈ genNodes params, ∀ c ∈ n.id.data, c ≠ '-' := by
  intro n hn
  unfold genNodes at hn
  obtain ⟨i, _, rfl⟩ := List.mem_map.mp hn
  exact makeNodeId_ne_dash i

theorem generateGraph_edge_ids_nodup (seed : ℕ) (params : PipelineParams) :
    ((generateGraph seed params).1.edges.map Edge.id).Nodup := by
  unfold generateGraph
  simp only
  have hcond : ∀ (s : ℕ) (p : Node × Node) (e : Edge),
      (edgeStep params s p).2 = some e → e.id = p.1.id ++ "->" ++ p.2.id := by
    intro s p e he
    unfold edgeStep at he
    simp only at he
    split at he
    · simp only [Option.some.injEq] at he
      subst he
      rfl
    · simp at he
  have hsub := mapState_map_sublist hcond (rngInit seed) (pairsOf (genNodes params))
  exact List.Nodup.sublist hsub
    (pairsOf_ids_nodup _ (genNodes_ids_nodup params) (genNodes_ids_ne_dash params))

theorem stateAt_edge_ids_nodup (E : MathEnv) (params : PipelineParams) :
    ∀ k : ℕ, ((stateAt E params k).1.edges.map Edge.id).Nodup := by
  intro k
  induction k with
  | zero => exact generateGraph_edge_ids_nodup params.seed params
  | succ k ih =>
    show ((updateWeights (stateAt E params k).1 _ params _).edges.map Edge.id).Nodup
    rw [updateWeights_edge_ids]
    exact ih

theorem applyRigidity_kept_edge_ids_sublist (graph : Graph)
    (scores : List (String × ℚ)) (params : PipelineParams) :
    ((applyRigidity graph scores params).keptGraph.edges.map Edge.id).Sublist
      (graph.edges.map Edge.id) := by
  unfold applyRigidity
  simp only
  exact (List.filter_sublist _).map _

theorem applyRigidity_edge_endpoints (graph : Graph)
    (scores : List (String × ℚ)) (params : PipelineParams) :
    ∀ e ∈ (applyRigidity graph scores params).keptGraph.edges,
      e.source ∈ (applyRigidity graph scores params).keptGraph.nodes.map Node.id ∧
      e.target ∈ (applyRigidity graph scores params).keptGraph.nodes.map Node.id := by
  intro e he
  unfold applyRigidity at he ⊢
  simp only [List.mem_filter, Bool.and_eq_true] at he
  obtain ⟨_, ⟨hsrc, htgt⟩, _⟩ := he
  constructor
  · exact List.elem_iff.mp hsrc
  · exact List.elem_iff.mp htgt

/-- Claim C6: in every pruned graph at every step, every kept edge has both
endpoints among the kept nodes, and no duplicate edge identifiers ever
appear — neither in the engine's evolving graph nor in any pruned graph. -/
theorem claim_C6_edge_validity (E : MathEnv) (params : PipelineParams) (k : ℕ) :
    (∀ e ∈ (applyRigidity (stateAt E params k).1
        (activationScores E (stateAt E params k).1 (stateAt E params k).2 params)
        params).keptGraph.edges,
      e.source ∈ (applyRigidity (stateAt E params k).1
        (activationScores E (stateAt E params k).1 (stateAt E params k).2 params)
        params).keptGraph.nodes.map Node.id ∧
      e.target ∈ (applyRigidity (stateAt E params k).1
        (activationScores E (stateAt E params k).1 (stateAt E params k).2 params)
        params).keptGraph.nodes.map Node.id) ∧
    ((stateAt E params k).1.edges.map Edge.id).Nodup ∧
    ((applyRigidity (stateAt E params k).1
        (activationScores E (stateAt E params k).1 (stateAt E params k).2 params)
        params).keptGraph.edges.map Edge.id).Nodup := by
  refine ⟨applyRigidity_edge_endpoints _ _ _, stateAt_edge_ids_nodup E params k, ?_⟩
  exact List.Nodup.sublist (applyRigidity_kept_edge_ids_sublist _ _ _)
    (stateAt_edge_ids_nodup E params k)

/-! ### Activation scoring matches the spec formula and stays in (0,1) -/

theorem adjGet_eq_filter {edges : List Edge} {id : String}
    (h : ∀ e ∈ edges, e.source ≠ e.target) :
    adjGet edges id = edges.filter (fun e => e.source == id || e.target == id) := by
  induction edges with
  | nil => rfl
  | cons e es ih =>
    have hadj : adjGet (e :: es) id
        = ((if e.source == id then [e] else [])
            ++ (if e.target == id then [e] else [])) ++ adjGet es id := by
      simp [adjGet]
    rw [hadj, List.filter_cons]
    have ih' := ih (fun e' he' => h e' (List.mem_cons_of_mem _ he'))
    rcases hs : e.source == id with _ | _ <;> rcases ht : e.target == id with _ | _
    · simp [hs, ht, ih']
    · simp [hs, ht, ih']
    · simp [hs, ht, ih']
    · exact absurd ((by simpa using hs : e.source = id).trans
        (by simpa using ht : e.target = id).symm) (h e (List.mem_cons_self _ _))

theorem nodeScore_eq_spec (E : MathEnv) (graph : Graph)
    (context : List (String × ℚ)) (params : PipelineParams) (node : Node)
    (hself : ∀ e ∈ graph.edges, e.source ≠ e.target) :
    nodeScore E graph context params node
      = round3 (sigmoid E ((rawSpec graph context params node - 0.5) * 4)) := by
  unfold nodeScore rawSpec degreeScoreSpec specIncidentEdges
  rw [adjGet_eq_filter hself]
  simp only [List.length_eq_zero]

theorem lookup_map_nodes (f : Node → ℚ) :
    ∀ (nodes : List Node), (nodes.map Node.id).Nodup →
      ∀ node ∈ nodes,
        getD (nodes.map (fun n => (n.id, f n))) node.id 0 = f node := by
  intro nodes
  induction nodes with
  | nil => intro _ node h; simp at h
  | cons n rest ih =>
    intro hnd node hmem
    have hnd' : n.id ∉ rest.map Node.id ∧ (rest.map Node.id).Nodup := by
      simpa [List.nodup_cons] using hnd
    rcases List.mem_cons.mp hmem with rfl | hmem'
    · unfold getD lookup?
      rw [List.map_cons, List.find?_cons_of_pos _ (by simp)]
      rfl
    · have hne : (n.id == node.id) = false := by
        simp only [beq_eq_false_iff_ne, ne_eq]
        intro heq
        exact hnd'.1 (heq ▸ List.mem_map_of_mem Node.id hmem')
      unfold getD lookup?
      rw [List.map_cons, List.find?_cons_of_neg _ (by simp [hne])]
      exact ih hnd'.2 node hmem'

theorem getD_zero_bounds {m : List (String × ℚ)} {k : String}
    (h : ∀ kv ∈ m, 0 ≤ kv.2 ∧ kv.2 ≤ 1) : 0 ≤ getD m k 0 ∧ getD m k 0 ≤ 1 := by
  unfold getD lookup?
  rcases hf : m.find? (fun kv => kv.1 == k) with _ | kv
  · rw [hf]
    simp
  · rw [hf]
    simpa using h kv (List.mem_of_find?_eq_some hf)

theorem degreeScoreSpec_bounds (graph : Graph) (node : Node)
    (hw : ∀ e ∈ graph.edges, 0 ≤ e.weight ∧ e.weight ≤ 1) :
    0 ≤ degreeScoreSpec graph node ∧ degreeScoreSpec graph node ≤ 1 := by
  have hform : degreeScoreSpec graph node
      = (if (graph.edges.filter (fun e => e.source == node.id || e.target == node.id)) = []
        then 0
        else ((graph.edges.filter
            (fun e => e.source == node.id || e.target == node.id)).map
              (fun e => e.weight)).sum
          / ((graph.edges.filter
            (fun e => e.source == node.id || e.target == node.id)).length : ℚ)) := rfl
  rw [hform]
  split
  · norm_num
  · rename_i hne
    have hmem : ∀ w ∈ (graph.edges.filter
        (fun e => e.source == node.id || e.target == node.id)).map
          (fun e => e.weight), 0 ≤ w ∧ w ≤ 1 := by
      intro w hwmem
      obtain ⟨e, he, rfl⟩ := List.mem_map.mp hwmem
      exact hw e (List.mem_of_mem_filter he)
    set l := (graph.edges.filter
      (fun e => e.source == node.id || e.target == node.id)) with hl
    have hpos : (0 : ℚ) < l.length := by
      have := List.length_pos.mpr hne
      exact_mod_cast this
    constructor
    · apply div_nonneg _ (le_of_lt hpos)
      exact List.sum_nonneg (fun w hwm => (hmem w hwm).1)
    · rw [div_le_one hpos]
      have := List.sum_le_card_nsmul (l.map (fun e => e.weight)) 1
        (fun w hwm => (hmem w hwm).2)
      simpa using this

theorem rawSpec_bounds (graph : Graph) (context : List (String × ℚ))
    (params : PipelineParams) (node : Node)
    (hw : ∀ e ∈ graph.edges, 0 ≤ e.weight ∧ e.weight ≤ 1)
    (hctx : ∀ kv ∈ context, 0 ≤ kv.2 ∧ kv.2 ≤ 1)
    (hb0 : 0 ≤ params.contextBlend) (hb1 : params.contextBlend ≤ 1) :
    0 ≤ rawSpec graph context params node
      ∧ rawSpec graph context params node ≤ 1.08 := by
  obtain ⟨hd0, hd1⟩ := degreeScoreSpec_bounds graph node hw
  obtain ⟨hc0, hc1⟩ := getD_zero_bounds (k := node.id) hctx
  unfold rawSpec
  split <;> constructor <;> nlinarith

theorem round3_sigmoid_bounds (E : MathEnv) {x : ℚ}
    (hx0 : -3 ≤ x) (hx1 : x ≤ 3)
    (hpos : ∀ q : ℚ, 0 < E.exp q)
    (hub : ∀ q : ℚ, q ≤ 3 → E.exp q < 1999)
    (hlb : ∀ q : ℚ, -3 ≤ q → 1 / 1999 < E.exp q) :
    0 < round3 (sigmoid E x) ∧ round3 (sigmoid E x) < 1 := by
  have hp := hpos (-x)
  have hu := hub (-x) (by linarith)
  have hl := hlb (-x) (by linarith)
  have hden : (0 : ℚ) < 1 + E.exp (-x) := by linarith
  have hs : sigmoid E x = 1 / (1 + E.exp (-x)) := rfl
  have hs_lb : 1 / 2000 < sigmoid E x := by
    rw [hs]
    rw [div_lt_div_iff (by norm_num) hden]
    linarith
  have hs_ub : sigmoid E x < 1999 / 2000 := by
    rw [hs]
    rw [div_lt_div_iff hden (by norm_num)]
    nlinarith
  constructor
  · unfold round3
    have h1 : (1 : ℤ) ≤ ⌊sigmoid E x * 1000 + 1 / 2⌋ := by
      rw [Int.le_floor]
      push_cast
      nlinarith
    apply div_pos _ (by norm_num)
    exact_mod_cast lt_of_lt_of_le one_pos (by exact_mod_cast h1)
  · unfold round3
    have h2 : ⌊sigmoid E x * 1000 + 1 / 2⌋ < 1000 := by
      rw [Int.floor_lt]
      push_cast
      nlinarith
    rw [div_lt_one (by norm_num)]
    exact_mod_cast h2

/-- Claim C7: every node's activation score is
`sigmoid((raw - 0.5) * 4)` rounded to 3 decimals, with
`raw = contextBlend*contextScore + (1-contextBlend)*degreeScore + noveltyBonus`
(`degreeScore` the mean incident weight, 0 when isolated; `noveltyBonus`
0.08 exactly when novel), and the stored score is strictly between 0 and 1.
The graph is assumed free of self-loops and duplicate node ids (true of
every graph the engine builds), weights and context values in `[0,1]`,
`contextBlend ∈ [0,1]`, and `Math.exp` is assumed positive and bounded on
`[-3,3]` as the real exponential is. -/
theorem claim_C7_activation_scores (E : MathEnv) (graph : Graph)
    (context : List (String × ℚ)) (params : PipelineParams)
    (hnd : (graph.nodes.map Node.id).Nodup)
    (hself : ∀ e ∈ graph.edges, e.source ≠ e.target)
    (hw : ∀ e ∈ graph.edges, 0 ≤ e.weight ∧ e.weight ≤ 1)
    (hctx : ∀ kv ∈ context, 0 ≤ kv.2 ∧ kv.2 ≤ 1)
    (hb0 : 0 ≤ params.contextBlend) (hb1 : params.contextBlend ≤ 1)
    (hpos : ∀ q : ℚ, 0 < E.exp q)
    (hub : ∀ q : ℚ, q ≤ 3 → E.exp q < 1999)
    (hlb : ∀ q : ℚ, -3 ≤ q → 1 / 1999 < E.exp q) :
    ∀ node ∈ graph.nodes,
      getD (activationScores E graph context params) node.id 0
        = round3 (sigmoid E ((rawSpec graph context params node - 0.5) * 4)) ∧
      0 < getD (activationScores E graph context params) node.id 0 ∧
      getD (activationScores E graph context params) node.id 0 < 1 := by
  intro node hmem
  have hlook : getD (activationScores E graph context params) node.id 0
      = nodeScore E graph context params node :=
    lookup_map_nodes _ graph.nodes hnd node hmem
  have hspec := nodeScore_eq_spec E graph context params node hself
  obtain ⟨hr0, hr1⟩ := rawSpec_bounds graph context params node hw hctx hb0 hb1
  have hbounds := round3_sigmoid_bounds E
    (x := (rawSpec graph context params node - 0.5) * 4)
    (by linarith) (by linarith) hpos hub hlb
  exact ⟨hlook.trans hspec, by rw [hlook, hspec]; exact hbounds.1,
    by rw [hlook, hspec]; exact hbounds.2⟩

/-- Witness for C7 on a concrete graph, context, params and environment. -/
theorem claim_C7_activation_scores_witness :
    ((isolatedGraph.nodes.map Node.id).Nodup) ∧
    (∀ node ∈ isolatedGraph.nodes,
      getD (activationScores E0 isolatedGraph isolatedScores testParams) node.id 0
        = round3 (sigmoid E0 ((rawSpec isolatedGraph isolatedScores testParams node - 0.5) * 4)) ∧
      0 < getD (activationScores E0 isolatedGraph isolatedScores testParams) node.id 0 ∧
      getD (activationScores E0 isolatedGraph isolatedScores testParams) node.id 0 < 1) :=
  ⟨by decide,
    claim_C7_activation_scores E0 isolatedGraph isolatedScores testParams
      (by decide) (by decide) (by decide)
      (by intro kv hkv; fin_cases hkv <;> norm_num [isolatedScores])
      (by norm_num [testParams]) (by norm_num [testParams])
      (by intro q; norm_num [E0])
      (by intro q _; norm_num [E0])
      (by intro q _; norm_num [E0])⟩

/-! ### Key-permutation invariance of the canonical serialization -/

theorem jvalue_sizeOf_pos (v : JValue) : 0 < sizeOf v := by
  cases v <;> simp_arith

theorem sizeOf_mem_jarr {x : JValue} {items : List JValue} (h : x ∈ items) :
    sizeOf x < sizeOf (JValue.jarr items) := by
  have h1 := List.sizeOf_lt_of_mem h
  simp only [JValue.jarr.sizeOf_spec]
  omega

theorem sizeOf_mem_jobj {kv : String × JValue} {fields : List (String × JValue)}
    (h : kv ∈ fields) : sizeOf kv.2 < sizeOf (JValue.jobj fields) := by
  have h1 := List.sizeOf_lt_of_mem h
  have h2 : sizeOf kv.2 < sizeOf kv := by
    obtain ⟨a, b⟩ := kv
    simp only [Prod.mk.sizeOf_spec]
    omega
  simp only [JValue.jobj.sizeOf_spec]
  omega

theorem keyPermList_of_refl :
    ∀ (items : List JValue), (∀ x ∈ items, KeyPerm x x) → KeyPermList items items := by
  intro items
  induction items with
  | nil => intro _; exact KeyPermList.nil
  | cons x xs ih =>
    intro h
    exact KeyPermList.cons (h x (List.mem_cons_self _ _))
      (ih (fun y hy => h y (List.mem_cons_of_mem _ hy)))

theorem keyPermFields_of_refl :
    ∀ (fields : List (String × JValue)),
      (∀ kv ∈ fields, KeyPerm kv.2 kv.2) → KeyPermFields fields fields := by
  intro fields
  induction fields with
  | nil => intro _; exact KeyPermFields.nil
  | cons kv rest ih =>
    intro h
    obtain ⟨k, v⟩ := kv
    exact KeyPermFields.cons (h (k, v) (List.mem_cons_self _ _))
      (ih (fun kv' hkv' => h kv' (List.mem_cons_of_mem _ hkv')))

theorem keyPerm_refl : ∀ v : JValue, KeyPerm v v := by
  have H : ∀ (N : ℕ) (v : JValue), sizeOf v ≤ N → KeyPerm v v := by
    intro N
    induction N with
    | zero =>
      intro v h
      have := jvalue_sizeOf_pos v
      omega
    | succ N ih =>
      intro v hv
      cases v with
      | jnull => exact KeyPerm.jnull
      | jbool b => exact KeyPerm.jbool b
      | jnum q => exact KeyPerm.jnum q
      | jstr s => exact KeyPerm.jstr s
      | jarr items =>
        refine KeyPerm.jarr (keyPermList_of_refl items (fun x hx => ih x ?_))
        have := sizeOf_mem_jarr hx
        omega
      | jobj fields =>
        refine KeyPerm.jobj
          (keyPermFields_of_refl fields (fun kv hkv => ih kv.2 ?_))
          (List.Perm.refl _)
        have := sizeOf_mem_jobj hkv
        omega
  exact fun v => H (sizeOf v) v le_rfl

theorem keyPerm_swap2 (a b : String × JValue) (rest : List (String × JValue)) :
    KeyPerm (.jobj (a :: b :: rest)) (.jobj (b :: a :: rest)) :=
  KeyPerm.jobj (keyPermFields_of_refl _ (fun kv _ => keyPerm_refl kv.2))
    (List.Perm.swap b a rest)

theorem jsonNodupKeysItems_mem :
    ∀ {items : List JValue}, jsonNodupKeysItems items = true →
      ∀ x ∈ items, jsonNodupKeys x = true := by
  intro items
  induction items with
  | nil => intro _ x hx; simp at hx
  | cons y ys ih =>
    intro h x hx
    have h' : (jsonNodupKeys y && jsonNodupKeysItems ys) = true := h
    rw [Bool.and_eq_true] at h'
    rcases List.mem_cons.mp hx with rfl | hx'
    · exact h'.1
    · exact ih h'.2 x hx'

theorem jsonNodupKeysFields_mem :
    ∀ {fields : List (String × JValue)}, jsonNodupKeysFields fields = true →
      ∀ kv ∈ fields, jsonNodupKeys kv.2 = true := by
  intro fields
  induction fields with
  | nil => intro _ kv hkv; simp at hkv
  | cons kv0 rest ih =>
    intro h kv hkv
    obtain ⟨k, v⟩ := kv0
    have h' : (jsonNodupKeys v && jsonNodupKeysFields rest) = true := h
    rw [Bool.and_eq_true] at h'
    rcases List.mem_cons.mp hkv with rfl | hkv'
    · exact h'.1
    · exact ih h'.2 kv hkv'

theorem jsonNodupKeys_jobj {fields : List (String × JValue)}
    (h : jsonNodupKeys (.jobj fields) = true) :
    (fields.map (fun kv => kv.1)).Nodup
      ∧ ∀ kv ∈ fields, jsonNodupKeys kv.2 = true := by
  have h' : (decide ((fields.map (fun kv => kv.1)).Nodup)
      && jsonNodupKeysFields fields) = true := h
  rw [Bool.and_eq_true, decide_eq_true_eq] at h'
  exact ⟨h'.1, jsonNodupKeysFields_mem h'.2⟩

theorem ssFields_eq_map (E : MathEnv) :
    ∀ l : List (String × JValue),
      ssFields E l = l.map (fun kv => (kv.1, stableStringify E kv.2)) := by
  intro l
  induction l with
  | nil => rfl
  | cons kv rest ih =>
    obtain ⟨k, v⟩ := kv
    show (k, stableStringify E v) :: ssFields E rest = _
    rw [ih]
    rfl

theorem ssItems_congr (E : MathEnv) :
    ∀ {xs ys : List JValue}, KeyPermList xs ys →
      (∀ x ∈ xs, ∀ y, KeyPerm x y → jsonNodupKeys x = true →
        stableStringify E x = stableStringify E y) →
      jsonNodupKeysItems xs = true →
      ssItems E xs = ssItems E ys := by
  intro xs
  induction xs with
  | nil =>
    intro ys h _ _
    cases h
    rfl
  | cons x xs ih =>
    intro ys h hIH hnd
    cases h with
    | cons hxy ht =>
      have hnd' : (jsonNodupKeys x && jsonNodupKeysItems xs) = true := hnd
      rw [Bool.and_eq_true] at hnd'
      show stableStringify E x :: ssItems E xs = _
      rw [hIH x (List.mem_cons_self _ _) _ hxy hnd'.1,
        ih ht (fun z hz => hIH z (List.mem_cons_of_mem _ hz)) hnd'.2]
      rfl

theorem ssFields_congr (E : MathEnv) :
    ∀ {l m : List (String × JValue)}, KeyPermFields l m →
      (∀ kv ∈ l, ∀ w, KeyPerm kv.2 w → jsonNodupKeys kv.2 = true →
        stableStringify E kv.2 = stableStringify E w) →
      jsonNodupKeysFields l = true →
      ssFields E l = ssFields E m := by
  intro l
  induction l with
  | nil =>
    intro m h _ _
    cases h
    rfl
  | cons kv l' ih =>
    intro m h hIH hnd
    obtain ⟨k, v⟩ := kv
    cases h with
    | cons hvw ht =>
      have hnd' : (jsonNodupKeys v && jsonNodupKeysFields l') = true := hnd
      rw [Bool.and_eq_true] at hnd'
      show (k, stableStringify E v) :: ssFields E l' = _
      rw [hIH (k, v) (List.mem_cons_self _ _) _ hvw hnd'.1,
        ih ht (fun kv' hkv' => hIH kv' (List.mem_cons_of_mem _ hkv')) hnd'.2]
      rfl

theorem mergeSort_strFieldLe_eq_of_perm {L P : List (String × String)}
    (hperm : L.Perm P) (hnd : (L.map Prod.fst).Nodup) :
    L.mergeSort strFieldLe = P.mergeSort strFieldLe := by
  have htrans : ∀ a b c : String × String,
      strFieldLe a b → strFieldLe b c → strFieldLe a c := by
    intro a b c hab hbc
    unfold strFieldLe at hab hbc ⊢
    simp only [decide_eq_true_eq] at hab hbc ⊢
    exact le_trans hab hbc
  have htotal : ∀ a b : String × String, strFieldLe a b || strFieldLe b a := by
    intro a b
    unfold strFieldLe
    rcases le_total a.1 b.1 with h | h <;> simp [h]
  have hs1 := List.sorted_mergeSort htrans htotal L
  have hs2 := List.sorted_mergeSort htrans htotal P
  have hp : (L.mergeSort strFieldLe).Perm (P.mergeSort strFieldLe) :=
    (List.mergeSort_perm L _).trans (hperm.trans (List.mergeSort_perm P _).symm)
  have hndL : ((L.mergeSort strFieldLe).map Prod.fst).Nodup :=
    ((List.mergeSort_perm L strFieldLe).map Prod.fst).symm.nodup hnd
  have hndP : ((P.mergeSort strFieldLe).map Prod.fst).Nodup :=
    (hp.map Prod.fst).nodup hndL
  have hstrict : ∀ {l : List (String × String)},
      l.Pairwise (fun a b => strFieldLe a b) → (l.map Prod.fst).Nodup →
      l.Pairwise (fun a b : String × String => a.1 < b.1) := by
    intro l hle hndl
    have hne : l.Pairwise (fun a b : String × String => a.1 ≠ b.1) :=
      List.pairwise_map.mp hndl
    refine (hle.and hne).imp ?_
    intro a b hab
    have h1 : a.1 ≤ b.1 := by
      have := hab.1
      unfold strFieldLe at this
      simpa using this
    exact lt_of_le_of_ne h1 hab.2
  haveI : IsAntisymm (String × String) (fun a b => a.1 < b.1) :=
    ⟨fun a b h1 h2 => absurd h2 (lt_asymm h1)⟩
  exact List.eq_of_perm_of_sorted hp (hstrict hs1 hndL) (hstrict hs2 hndP)

theorem keyPerm_stringify (E : MathEnv) :
    ∀ (v w : JValue), KeyPerm v w → jsonNodupKeys v = true →
      stableStringify E v = stableStringify E w := by
  have H : ∀ (N : ℕ) (v w : JValue), sizeOf v ≤ N → KeyPerm v w →
      jsonNodupKeys v = true → stableStringify E v = stableStringify E w := by
    intro N
    induction N with
    | zero =>
      intro v w h
      have := jvalue_sizeOf_pos v
      omega
    | succ N ih =>
      intro v w hsz hkp hnd
      cases hkp with
      | jnull => rfl
      | jbool b => rfl
      | jnum q => rfl
      | jstr s => rfl
      | @jarr xs ys hl =>
        have hitems : ssItems E xs = ssItems E ys := by
          refine ssItems_congr E hl (fun x hx y hxy hnx => ih x y ?_ hxy hnx) hnd
          have := sizeOf_mem_jarr hx
          omega
        show "[" ++ String.intercalate "," (ssItems E xs) ++ "]"
          = "[" ++ String.intercalate "," (ssItems E ys) ++ "]"
        rw [hitems]
      | @jobj l m p hf hp =>
        obtain ⟨hndkeys, _⟩ := jsonNodupKeys_jobj hnd
        have hndfields : jsonNodupKeysFields l = true := by
          have h' : (decide ((l.map (fun kv => kv.1)).Nodup)
              && jsonNodupKeysFields l) = true := hnd
          rw [Bool.and_eq_true] at h'
          exact h'.2
        have hLM : ssFields E l = ssFields E m := by
          refine ssFields_congr E hf (fun kv hkv w' hw' hnkv => ih kv.2 w' ?_ hw' hnkv)
            hndfields
          have := sizeOf_mem_jobj hkv
          omega
        have hMP : (ssFields E m).Perm (ssFields E p) := by
          rw [ssFields_eq_map, ssFields_eq_map]
          exact hp.map _
        have hkeys : ((ssFields E l).map Prod.fst).Nodup := by
          rw [ssFields_eq_map, List.map_map]
          have hcomp : (Prod.fst ∘ fun kv : String × JValue =>
              (kv.1, stableStringify E kv.2)) = fun kv => kv.1 := rfl
          rw [hcomp]
          exact hndkeys
        have hsort : (ssFields E l).mergeSort strFieldLe
            = (ssFields E p).mergeSort strFieldLe :=
          mergeSort_strFieldLe_eq_of_perm (hLM ▸ hMP) hkeys
        show "\x7b" ++ String.intercalate ","
            (((ssFields E l).mergeSort strFieldLe).map
              (fun kv => jsonQuote kv.1 ++ ":" ++ kv.2)) ++ "\x7d"
          = "\x7b" ++ String.intercalate ","
            (((ssFields E p).mergeSort strFieldLe).map
              (fun kv => jsonQuote kv.1 ++ ":" ++ kv.2)) ++ "\x7d"
        rw [hsort]
  exact fun v w hkp hnd => H (sizeOf v) v w le_rfl hkp hnd

/-- Claim C3: the runlog hash is a pure function of content — permuting the
insertion order of the fields of any object/mapping inside the serialized
RunLog (keys sorted lexicographically before the 32-bit FNV-1a-style fold,
offset basis 2166136261, prime 16777619, one XOR-then-multiply per
character, 8-hex-digit output) leaves the hash unchanged. -/
theorem claim_C3_hash_canonicality (E : MathEnv) (log : RunLog) (w : JValue)
    (hperm : KeyPerm (runlogToJson log) w)
    (hnd : jsonNodupKeys (runlogToJson log) = true) :
    runlogHash E log = toHex8 (fnvFold (stableStringify E w)) := by
  unfold runlogHash
  rw [keyPerm_stringify E _ _ hperm hnd]

/-- Witness for C3: the hash of a concrete log equals the hash computed
from its JSON tree with the two leading top-level fields swapped. -/
theorem claim_C3_hash_canonicality_witness :
    jsonNodupKeys (runlogToJson smallLog) = true ∧
    runlogHash E0 smallLog
      = toHex8 (fnvFold (stableStringify E0 smallLogJsonSwapped)) :=
  ⟨by decide,
    claim_C3_hash_canonicality E0 smallLog smallLogJsonSwapped
      (keyPerm_swap2 ("model", .jstr "m") ("createdAt", .jstr "t")
        [("params", jsonOfParams testParams), ("steps", .jarr [])])
      (by decide)⟩

end Putman
